import Mathlib

/-!
# Random symbolic-expression generator: a model of `src/app.cpp`

The development embeds the rendering code (`join`, the two operation types, the
three symbol classes) and the depth-bounded generator (`OperationGenerator`) and
proves properties of them.

Modelling conventions.

* `std::string` is a Lean `String`; one C++ `char` is one Lean `Char`, so
  `size()` is `String.length`.
* `int` is `Int`.  No property below depends on wrap-around.
* `double` weights are natural numbers and `std::discrete_distribution` is an
  exact-arithmetic stand-in for the library, which normalises in double
  precision.  The stand-in agrees with the library in the range of the index
  it produces; no theorem below uses more of it than that range, and none is
  about probabilities.
* The random engines are an oracle `draws : Nat → Nat`; every sampling
  operation reads the next entry.  The generator state counts the samples
  taken and records, as ghost state, the member functions entered.
* A C++ exception or an out-of-bounds read is an `Except.error`; the state
  reached at that point is kept.
* Recursion is bounded by a fuel argument that bounds the nesting of calls;
  running out of it is the separate fault `Fault.fuel`.
-/

namespace OperationsGenerator

/-! ## Definitions -/

/-- Ways in which a call does not return a value. -/
inductive Fault where
  /-- Thrown by `std::string::erase` when the position is past the end. -/
  | out_of_range
  /-- Thrown by `std::vector::reserve` when the request exceeds `max_size()`. -/
  | length_error
  /-- An `operator[]` read past the end of a vector (undefined behaviour). -/
  | out_of_bounds
  /-- Model only: the nesting of calls exceeded the fuel. -/
  | fuel
deriving DecidableEq, Repr

/-- The function `join` of the source: every item is streamed followed by the
separator, then `erase(result.size() - separator.size())` drops everything
from that position on.  The subtraction is unsigned: when the separator is
longer than the streamed text it wraps to a position past the end and `erase`
throws. -/
def join (items : List String) (separator : String) : Except Fault String :=
  let result := items.foldl (fun stream item => stream ++ item ++ separator) ""
  if result.length < separator.length then .error .out_of_range
  else .ok (String.mk (result.data.take (result.length - separator.length)))

/-- The two subclasses of `OperationType`, each with its `argsNumber`. -/
inductive OperationType where
  | SignOperationType (sign : String) (argsNumber : Int)
  | NameOperationType (name : String) (argsNumber : Int)
deriving DecidableEq, Repr

/-- The method `getArgsNumber` of both subclasses. -/
def OperationType.getArgsNumber : OperationType → Int
  | .SignOperationType _ argsNumber => argsNumber
  | .NameOperationType _ argsNumber => argsNumber

/-- The class `Variable`. -/
structure Variable where
  name : String
deriving DecidableEq, Repr

/-- The class `Number`. -/
structure Number where
  value : Int
deriving DecidableEq, Repr

/-- The class hierarchy under `Symbol`: `Variable`, `Number` and `Operation`. -/
inductive Symbol where
  | Variable (name : String)
  | Number (value : Int)
  | Operation (type : OperationType) (args : List Symbol)
deriving Repr

/-- A `shared_ptr<Variable>` used as a `shared_ptr<Symbol>`. -/
def Variable.toSymbol (v : Variable) : Symbol := .Variable v.name

/-- A `shared_ptr<Number>` used as a `shared_ptr<Symbol>`. -/
def Number.toSymbol (n : Number) : Symbol := .Number n.value

/-- The library function `std::to_string(int)`: decimal digits, with a leading
minus sign for a negative value. -/
def to_string (value : Int) : String :=
  match value with
  | Int.ofNat n => Nat.repr n
  | Int.negSucc n => "-" ++ Nat.repr (n + 1)

/-- The constant `separator` of `NameOperationType`. -/
def NameOperationType.separator : String := ", "

mutual
/-- The virtual method `Symbol::toString`.  For an `Operation` the call
`type->toString(args)` is unfolded here (see `OperationType.toString`), which
keeps the recursion structural. -/
def Symbol.toString : Symbol → Except Fault String
  | .Variable name => .ok name
  | .Number value => .ok (to_string value)
  | .Operation (.SignOperationType sign _) args =>
    match Symbol.toStrings args with
    | .error e => .error e
    | .ok strings => join strings sign
  | .Operation (.NameOperationType name _) args =>
    match Symbol.toStrings args with
    | .error e => .error e
    | .ok strings =>
      match join strings NameOperationType.separator with
      | .error e => .error e
      | .ok joined => .ok (name ++ "(" ++ joined ++ ")")
/-- The element-wise conversion `symbol->toString()` over the arguments
(`convert` in `SignOperationType`, `transform` in `NameOperationType`). -/
def Symbol.toStrings : List Symbol → Except Fault (List String)
  | [] => .ok []
  | symbol :: rest =>
    match Symbol.toString symbol with
    | .error e => .error e
    | .ok string =>
      match Symbol.toStrings rest with
      | .error e => .error e
      | .ok strings => .ok (string :: strings)
end

/-- The virtual method `OperationType::toString(args)` of the two subclasses. -/
def OperationType.toString : OperationType → List Symbol → Except Fault String
  | .SignOperationType sign _, args =>
    match Symbol.toStrings args with
    | .error e => .error e
    | .ok strings => join strings sign
  | .NameOperationType name _, args =>
    match Symbol.toStrings args with
    | .error e => .error e
    | .ok strings =>
      match join strings NameOperationType.separator with
      | .error e => .error e
      | .ok joined => .ok (name ++ "(" ++ joined ++ ")")

/-! ### The renderer as the specification words it -/

/-- The items with the separator between consecutive ones and nowhere else. -/
def interspersed (separator : String) : List String → String
  | [] => ""
  | [item] => item
  | item :: next :: rest => item ++ separator ++ interspersed separator (next :: rest)

/-- The composition rule of an operation type on already rendered children:
`join(childStrings, sign)` for a sign, and
`name + "(" + join(childStrings, ", ") + ")"` for a name. -/
def OperationType.render : OperationType → List String → Except Fault String
  | .SignOperationType sign _, childStrings => join childStrings sign
  | .NameOperationType name _, childStrings =>
    (join childStrings ", ").map (fun joined => name ++ "(" ++ joined ++ ")")

mutual
/-- The renderer of the specification, by structural recursion: a variable is
its name, a number its decimal string, an operation the composition rule of
its type applied to the renderings of its children in child order. -/
def Symbol.renderSpec : Symbol → Except Fault String
  | .Variable name => .ok name
  | .Number value => .ok (to_string value)
  | .Operation type children =>
    match Symbol.renderSpecAll children with
    | .error e => .error e
    | .ok childStrings => type.render childStrings
/-- The children rendered first, left to right. -/
def Symbol.renderSpecAll : List Symbol → Except Fault (List String)
  | [] => .ok []
  | child :: rest =>
    match Symbol.renderSpec child with
    | .error e => .error e
    | .ok childString =>
      match Symbol.renderSpecAll rest with
      | .error e => .error e
      | .ok childStrings => .ok (childString :: childStrings)
end

/-! ### Shape of a tree -/

mutual
/-- Number of edges on the longest path from the root to a leaf. -/
def Symbol.height : Symbol → Nat
  | .Variable _ => 0
  | .Number _ => 0
  | .Operation _ args => Symbol.heightBelow args
/-- The longest path through one of the given children, counting the edge
that leads to the child; zero when there is no child. -/
def Symbol.heightBelow : List Symbol → Nat
  | [] => 0
  | symbol :: rest => max (Symbol.height symbol + 1) (Symbol.heightBelow rest)
end

/-- A `Variable` or a `Number`. -/
def Symbol.isLeaf : Symbol → Bool
  | .Variable _ => true
  | .Number _ => true
  | .Operation _ _ => false

mutual
/-- Every `Operation` node of the tree has as many children as
`getArgsNumber()` of its type says. -/
def Symbol.arityConsistent : Symbol → Bool
  | .Variable _ => true
  | .Number _ => true
  | .Operation type args =>
    decide ((args.length : Int) = type.getArgsNumber) && Symbol.allArityConsistent args
/-- The same for every tree of a list. -/
def Symbol.allArityConsistent : List Symbol → Bool
  | [] => true
  | symbol :: rest => Symbol.arityConsistent symbol && Symbol.allArityConsistent rest
end

/-! ### Sampling -/

/-- The index whose cumulative weight interval contains the point `r`. -/
def cumulativeIndex : List Nat → Nat → Nat
  | [], _ => 0
  | w :: ws, r => if r < w then 0 else cumulativeIndex ws (r - w) + 1

/-- The library class `std::discrete_distribution<int>` applied to a draw, in
exact arithmetic: the draw is reduced modulo the total weight and located in
the cumulative weights.  With no weight at all the library behaves as for the
single weight 1 and produces 0; with a zero total it also produces 0 (as
libstdc++ does; the standard leaves that case undefined).  The library itself
works in double precision, so only the range of the index, below
`max 1 (number of weights)`, is shared with it; the theorems use nothing
else. -/
def discrete_distribution (weights : List Nat) (r : Nat) : Nat :=
  if weights.sum = 0 then 0 else cumulativeIndex weights (r % weights.sum)

/-- The member functions of `OperationGenerator`, with their arguments. -/
inductive Call where
  | generateOperationType
  | generateVariable
  | generateNumber
  | generateZeroDepthObjectIndex
  | generateAnyDepthObjectIndex
  | generateSymbol (depth : Int)
  | generateSymbols (depth amount : Int)
  | generateOperation (depth : Int)
  | generateOperations (depth amount : Int)
deriving DecidableEq, Repr

/-- Mutable state of a run: how many samples have been taken from the random
source, and (ghost) the member functions entered so far, oldest first. -/
structure GenState where
  drawn : Nat
  calls : List Call
deriving DecidableEq, Repr

/-- Record the entry into a member function. -/
def GenState.enter (s : GenState) (c : Call) : GenState :=
  { s with calls := s.calls ++ [c] }

/-- The expression `distribution(randomGenerator)`: one sample. -/
def sample (draws : Nat → Nat) (weights : List Nat) (s : GenState) : Nat × GenState :=
  (discrete_distribution weights (draws s.drawn), { s with drawn := s.drawn + 1 })

/-- The function template `choice`: sample an index, return `items[index]`. -/
def choice {T : Type} (items : List T) (weights : List Nat) (draws : Nat → Nat)
    (s : GenState) : Except Fault T × GenState :=
  match items[(sample draws weights s).1]? with
  | some item => (.ok item, (sample draws weights s).2)
  | none => (.error .out_of_bounds, (sample draws weights s).2)

/-! ### The generator -/

/-- The data members of `OperationGenerator`. -/
structure OperationGenerator where
  «variables» : List Variable
  operationTypes : List OperationType
  numbers : List Number
  variablesWeights : List Nat
  operationTypesWeights : List Nat
  numbersWeights : List Nat
  objectsAndWeights : List (String × Nat)

/-- The constructor: the three weighted catalogues are unzipped. -/
def OperationGenerator.new (variablesAndWeights : List (Variable × Nat))
    (operationTypesAndWeights : List (OperationType × Nat))
    (numbersAndWeights : List (Number × Nat))
    (objectsAndWeights : List (String × Nat)) : OperationGenerator where
  «variables» := variablesAndWeights.unzip.1
  operationTypes := operationTypesAndWeights.unzip.1
  numbers := numbersAndWeights.unzip.1
  variablesWeights := variablesAndWeights.unzip.2
  operationTypesWeights := operationTypesAndWeights.unzip.2
  numbersWeights := numbersAndWeights.unzip.2
  objectsAndWeights := objectsAndWeights

/-- The expression `objectsAndWeights[key]`: an absent key reads as 0. -/
def OperationGenerator.weightOf (g : OperationGenerator) (key : String) : Nat :=
  (g.objectsAndWeights.lookup key).getD 0

/-- The member `zeroDepthWeights`. -/
def OperationGenerator.zeroDepthWeights (g : OperationGenerator) : List Nat :=
  [g.weightOf "variable", g.weightOf "number"]

/-- The member `anyDepthWeights`. -/
def OperationGenerator.anyDepthWeights (g : OperationGenerator) : List Nat :=
  [g.weightOf "variable", g.weightOf "number", g.weightOf "operation"]

/-- The method `generateOperationType`. -/
def generateOperationType (g : OperationGenerator) (draws : Nat → Nat) (s : GenState) :
    Except Fault OperationType × GenState :=
  choice g.operationTypes g.operationTypesWeights draws (s.enter .generateOperationType)

/-- The method `generateVariable`. -/
def generateVariable (g : OperationGenerator) (draws : Nat → Nat) (s : GenState) :
    Except Fault Variable × GenState :=
  choice g.variables g.variablesWeights draws (s.enter .generateVariable)

/-- The method `generateNumber`. -/
def generateNumber (g : OperationGenerator) (draws : Nat → Nat) (s : GenState) :
    Except Fault Number × GenState :=
  choice g.numbers g.numbersWeights draws (s.enter .generateNumber)

/-- The method `generateZeroDepthObjectIndex`. -/
def generateZeroDepthObjectIndex (g : OperationGenerator) (draws : Nat → Nat)
    (s : GenState) : Nat × GenState :=
  sample draws g.zeroDepthWeights (s.enter .generateZeroDepthObjectIndex)

/-- The method `generateAnyDepthObjectIndex`. -/
def generateAnyDepthObjectIndex (g : OperationGenerator) (draws : Nat → Nat)
    (s : GenState) : Nat × GenState :=
  sample draws g.anyDepthWeights (s.enter .generateAnyDepthObjectIndex)

/-- The loop `for (int i = 0; i < amount; i++) out.push_back(body())`, run
`count` more times on the vector built so far. -/
def pushBackLoop {T : Type} (body : GenState → Except Fault T × GenState) :
    Nat → List T → GenState → Except Fault (List T) × GenState
  | 0, out, s => (.ok out, s)
  | count + 1, out, s =>
    match body s with
    | (.error e, s1) => (.error e, s1)
    | (.ok item, s1) => pushBackLoop body count (out ++ [item]) s1

mutual
/-- The method `generateSymbol`. -/
def generateSymbol (g : OperationGenerator) (draws : Nat → Nat) :
    Nat → Int → GenState → Except Fault Symbol × GenState
  | 0, _, s => (.error .fuel, s)
  | fuel + 1, depth, s =>
    if depth = 0 then
      if (generateZeroDepthObjectIndex g draws (s.enter (.generateSymbol depth))).1 = 0 then
        ((generateVariable g draws
            (generateZeroDepthObjectIndex g draws (s.enter (.generateSymbol depth))).2).1.map
          Variable.toSymbol,
         (generateVariable g draws
            (generateZeroDepthObjectIndex g draws (s.enter (.generateSymbol depth))).2).2)
      else
        ((generateNumber g draws
            (generateZeroDepthObjectIndex g draws (s.enter (.generateSymbol depth))).2).1.map
          Number.toSymbol,
         (generateNumber g draws
            (generateZeroDepthObjectIndex g draws (s.enter (.generateSymbol depth))).2).2)
    else if (generateAnyDepthObjectIndex g draws (s.enter (.generateSymbol depth))).1 = 0 then
      ((generateVariable g draws
          (generateAnyDepthObjectIndex g draws (s.enter (.generateSymbol depth))).2).1.map
        Variable.toSymbol,
       (generateVariable g draws
          (generateAnyDepthObjectIndex g draws (s.enter (.generateSymbol depth))).2).2)
    else if (generateAnyDepthObjectIndex g draws (s.enter (.generateSymbol depth))).1 = 1 then
      ((generateNumber g draws
          (generateAnyDepthObjectIndex g draws (s.enter (.generateSymbol depth))).2).1.map
        Number.toSymbol,
       (generateNumber g draws
          (generateAnyDepthObjectIndex g draws (s.enter (.generateSymbol depth))).2).2)
    else
      generateOperation g draws fuel depth
        (generateAnyDepthObjectIndex g draws (s.enter (.generateSymbol depth))).2
/-- The method `generateSymbols`: `reserve(amount)` throws for a negative
amount (it converts to a huge unsigned size), then the loop pushes `amount`
results of `generateSymbol(depth)`. -/
def generateSymbols (g : OperationGenerator) (draws : Nat → Nat) :
    Nat → Int → Int → GenState → Except Fault (List Symbol) × GenState
  | 0, _, _, s => (.error .fuel, s)
  | fuel + 1, depth, amount, s =>
    if amount < 0 then (.error .length_error, s.enter (.generateSymbols depth amount))
    else
      pushBackLoop (generateSymbol g draws fuel depth) amount.toNat []
        (s.enter (.generateSymbols depth amount))
/-- The method `generateOperation`: the type is drawn first, then its
arguments are generated at `depth - 1`. -/
def generateOperation (g : OperationGenerator) (draws : Nat → Nat) :
    Nat → Int → GenState → Except Fault Symbol × GenState
  | 0, _, s => (.error .fuel, s)
  | fuel + 1, depth, s =>
    match generateOperationType g draws (s.enter (.generateOperation depth)) with
    | (.error e, s1) => (.error e, s1)
    | (.ok type, s1) =>
      match generateSymbols g draws fuel (depth - 1) type.getArgsNumber s1 with
      | (.error e, s2) => (.error e, s2)
      | (.ok args, s2) => (.ok (Symbol.Operation type args), s2)
end

/-- The method `generateOperations`. -/
def generateOperations (g : OperationGenerator) (draws : Nat → Nat) (fuel : Nat)
    (depth amount : Int) (s : GenState) : Except Fault (List Symbol) × GenState :=
  if amount < 0 then (.error .length_error, s.enter (.generateOperations depth amount))
  else
    pushBackLoop (generateOperation g draws fuel depth) amount.toNat []
      (s.enter (.generateOperations depth amount))

/-! ### Auxiliary notions used in the statements and proofs -/

/-- Text streamed by the loop of `join`: every item followed by the separator. -/
def streamed (separator : String) : List String → String
  | [] => ""
  | item :: rest => item ++ separator ++ streamed separator rest

/-- What a returned tree looks like when it was generated at `depth`. -/
def Shaped (depth : Int) (t : Symbol) : Prop :=
  t.arityConsistent = true ∧ (0 ≤ depth → (t.height : Int) ≤ depth)

/-- Bounds on the depth arguments of the recursive member functions. -/
def Call.within (symMax opMax : Int) : Call → Prop
  | .generateSymbol d => 0 ≤ d ∧ d ≤ symMax
  | .generateSymbols d _ => 0 ≤ d ∧ d ≤ symMax
  | .generateOperation d => 0 < d ∧ d ≤ opMax
  | _ => True

/-- The later state has the calls of the earlier one followed by calls within the bounds. -/
def Extends (symMax opMax : Int) (s s1 : GenState) : Prop :=
  ∃ ext, s1.calls = s.calls ++ ext ∧ ∀ c ∈ ext, c.within symMax opMax

/-- Catalogues from which every sampling step returns: each is non-empty and
has at most as many weights as items, and no operation type has a negative
number of arguments. -/
def OperationGenerator.wellFormed (g : OperationGenerator) : Prop :=
  (g.variables ≠ [] ∧ g.variablesWeights.length ≤ g.variables.length) ∧
  (g.numbers ≠ [] ∧ g.numbersWeights.length ≤ g.numbers.length) ∧
  (g.operationTypes ≠ [] ∧ g.operationTypesWeights.length ≤ g.operationTypes.length) ∧
  ∀ t ∈ g.operationTypes, 0 ≤ t.getArgsNumber

/-- The calls `c1` then `c2`, neither of them recursive, were the only ones
made inside `generateSymbol(depth)`, which returned a leaf or read a
catalogue out of bounds. -/
def LeafRun (g : OperationGenerator) (depth : Int) (s : GenState)
    (r : Except Fault Symbol × GenState) : Prop :=
  ∃ c1 c2, (∀ a b, Call.within a b c1) ∧ (∀ a b, Call.within a b c2) ∧
    r.2.calls = s.calls ++ [.generateSymbol depth, c1, c2] ∧
    r.2.drawn = s.drawn + 2 ∧
    (∀ t, r.1 = .ok t → t.isLeaf = true) ∧
    (∀ e, r.1 = .error e → e = .out_of_bounds ∧ ¬ g.wellFormed)

/-- The catalogue of the demo `run3`, cut down to three operation types. -/
def demoGenerator : OperationGenerator :=
  OperationGenerator.new [(⟨"x"⟩, 1)]
    [(.SignOperationType "+" 2, 1), (.SignOperationType "*" 2, 1),
      (.NameOperationType "sin" 1, 1)]
    [(⟨3⟩, 1)] [("variable", 1), ("operation", 3), ("number", 1)]

/-- A random source that yields the listed draws and then zeros. -/
def listDraws (l : List Nat) : Nat → Nat := fun i => l.getD i 0

/-- The state before anything was generated. -/
def GenState.initial : GenState := ⟨0, []⟩

/-- The results of `count` successive calls of `body`, each call starting in
the state the previous one left, listed in call order. -/
def successiveResults {T : Type} (body : GenState → Except Fault T × GenState) :
    Nat → GenState → Except Fault (List T) × GenState
  | 0, s => (.ok [], s)
  | count + 1, s =>
    match body s with
    | (.error e, s1) => (.error e, s1)
    | (.ok item, s1) =>
      match successiveResults body count s1 with
      | (.error e, s2) => (.error e, s2)
      | (.ok items, s2) => (.ok (item :: items), s2)

/-- What a loop returns that started from the vector `out` and then pushed
the given results. -/
def appendedTo {T : Type} (out : List T) (r : Except Fault (List T) × GenState) :
    Except Fault (List T) × GenState :=
  match r with
  | (.error e, s) => (.error e, s)
  | (.ok items, s) => (.ok (out ++ items), s)

mutual
/-- Every `Operation` node of the tree has at least one child. -/
def Symbol.operationsHaveChildren : Symbol → Bool
  | .Variable _ => true
  | .Number _ => true
  | .Operation _ args => !args.isEmpty && Symbol.allOperationsHaveChildren args
/-- The same for every tree of a list. -/
def Symbol.allOperationsHaveChildren : List Symbol → Bool
  | [] => true
  | symbol :: rest =>
    Symbol.operationsHaveChildren symbol && Symbol.allOperationsHaveChildren rest
end

/-- The tree `(x*3)+x`. -/
def productPlusVariable : Symbol :=
  .Operation (.SignOperationType "+" 2)
    [.Operation (.SignOperationType "*" 2) [.Variable "x", .Number 3], .Variable "x"]

/-- The tree `x*(3+x)`. -/
def variableTimesSum : Symbol :=
  .Operation (.SignOperationType "*" 2)
    [.Variable "x", .Operation (.SignOperationType "+" 2) [.Number 3, .Variable "x"]]

mutual
/-- Every `Variable` leaf of the tree is in the variable catalogue, every
`Number` leaf in the number catalogue, and the type of every `Operation` node
in the operation-type catalogue. -/
def Symbol.fromCatalogue (g : OperationGenerator) : Symbol → Bool
  | .Variable name => decide (Variable.mk name ∈ g.variables)
  | .Number value => decide (Number.mk value ∈ g.numbers)
  | .Operation type args =>
    decide (type ∈ g.operationTypes) && Symbol.allFromCatalogue g args
/-- The same for every tree of a list. -/
def Symbol.allFromCatalogue (g : OperationGenerator) : List Symbol → Bool
  | [] => true
  | symbol :: rest => Symbol.fromCatalogue g symbol && Symbol.allFromCatalogue g rest
end

/-! ### Lines of the output file -/

/-- No newline character occurs in the string. -/
def noNewline (text : String) : Prop := '\n' ∉ text.data

/-- The text an operation type contributes to a rendering: its sign or name. -/
def OperationType.label : OperationType → String
  | .SignOperationType sign _ => sign
  | .NameOperationType name _ => name

/-- No variable name and no sign or name of an operation type of the
catalogues contains a newline character. -/
def OperationGenerator.noNewlines (g : OperationGenerator) : Prop :=
  (∀ v ∈ g.variables, noNewline v.name) ∧ (∀ type ∈ g.operationTypes, noNewline type.label)

/-- The loop of the demo `run3` that writes `operation->toString() + '\n'` for
every operation: the text of the file after it. -/
def writeLines (renderings : List String) : String :=
  renderings.foldl (fun file rendering => file ++ (rendering ++ "\n")) ""

/-- The lines of a text read from the character list, `line` being the part
of the current line read so far: a line ends at each newline character, and a
non-empty rest after the last newline is a line too. -/
def splitLinesFrom : List Char → List Char → List String
  | [], line => if line = [] then [] else [String.mk line]
  | c :: rest, line =>
    if c = '\n' then String.mk line :: splitLinesFrom rest []
    else splitLinesFrom rest (line ++ [c])

/-- The text split on the newline character. -/
def splitLines (text : String) : List String := splitLinesFrom text.data []

/-- The characters of the given lines, each followed by a newline. -/
def linesText : List String → List Char
  | [] => []
  | rendering :: rest => rendering.data ++ '\n' :: linesText rest

/-- A catalogue whose only variable has a newline character in its name. -/
def newlineGenerator : OperationGenerator :=
  OperationGenerator.new [(⟨"a\nb"⟩, 1)] [(.NameOperationType "sin" 1, 1)] [(⟨3⟩, 1)]
    [("variable", 1), ("operation", 3), ("number", 1)]

/-- A catalogue without newline characters whose only operation type takes
no argument. -/
def constantGenerator : OperationGenerator :=
  OperationGenerator.new [(⟨"x"⟩, 1)] [(.NameOperationType "pi" 0, 1)] [(⟨3⟩, 1)]
    [("variable", 1), ("operation", 3), ("number", 1)]

/-! ## Rendering -/

theorem foldl_streamed (separator : String) (items : List String) (acc : String) :
    items.foldl (fun stream item => stream ++ item ++ separator) acc
      = acc ++ streamed separator items := by
  induction items generalizing acc with
  | nil => simp [streamed]
  | cons item rest ih =>
    rw [List.foldl_cons, ih, streamed]
    simp only [String.append_assoc]

theorem streamed_cons (separator item : String) (rest : List String) :
    streamed separator (item :: rest) = interspersed separator (item :: rest) ++ separator := by
  induction rest generalizing item with
  | nil => simp [streamed, interspersed]
  | cons next rest ih =>
    rw [streamed, ih next, interspersed]
    simp only [String.append_assoc]

theorem join_cons (separator item : String) (rest : List String) :
    join (item :: rest) separator = .ok (interspersed separator (item :: rest)) := by
  unfold join
  simp only [foldl_streamed, streamed_cons, String.empty_append]
  rw [if_neg (by simp [String.length_append])]
  congr 1
  apply String.ext
  simp [String.length_append, String.data_append]

theorem join_of_ne_nil (separator : String) (items : List String) (h : items ≠ []) :
    join items separator = .ok (interspersed separator items) := by
  cases items with
  | nil => exact absurd rfl h
  | cons item rest => exact join_cons separator item rest

theorem toStrings_ne_nil {args : List Symbol} {strings : List String} (h : args ≠ [])
    (hs : Symbol.toStrings args = .ok strings) : strings ≠ [] := by
  cases args with
  | nil => exact absurd rfl h
  | cons symbol rest =>
    rw [Symbol.toStrings] at hs
    split at hs
    · cases hs
    · split at hs
      · cases hs
      · cases hs; simp

theorem operation_toString (type : OperationType) (args : List Symbol) :
    (Symbol.Operation type args).toString = type.toString args := by
  cases type <;> rw [Symbol.toString, OperationType.toString]

mutual
theorem toString_renderSpec_aux : ∀ s : Symbol, s.toString = s.renderSpec
  | .Variable _ => by rw [Symbol.toString, Symbol.renderSpec]
  | .Number _ => by rw [Symbol.toString, Symbol.renderSpec]
  | .Operation (.SignOperationType sign n) args => by
    rw [Symbol.toString, Symbol.renderSpec, toStrings_renderSpecAll_aux args]
    rfl
  | .Operation (.NameOperationType name n) args => by
    rw [Symbol.toString, Symbol.renderSpec, toStrings_renderSpecAll_aux args]
    cases Symbol.renderSpecAll args with
    | error e => rfl
    | ok strings =>
      simp only [OperationType.render, NameOperationType.separator]
      cases join strings ", " <;> rfl
theorem toStrings_renderSpecAll_aux :
    ∀ l : List Symbol, Symbol.toStrings l = Symbol.renderSpecAll l
  | [] => by rw [Symbol.toStrings, Symbol.renderSpecAll]
  | s :: rest => by
    rw [Symbol.toStrings, Symbol.renderSpecAll, toString_renderSpec_aux s,
      toStrings_renderSpecAll_aux rest]
end

/-- C8: for every `Symbol` tree the code's `toString` equals the renderer
defined by structural recursion: a variable renders as its name, a number as
the decimal string of its value, an operation as the composition rule of its
type applied to the renderings of its children in child order.  A failure of
`join` inside a subtree makes both sides fail alike. -/
theorem toString_eq_renderSpec (s : Symbol) : s.toString = s.renderSpec :=
  toString_renderSpec_aux s

/-- C9: for every sign and every non-empty list of children,
`SignOperationType(sign, n).toString` renders the children's renderings with
the sign between consecutive ones and nowhere else; `join` on a non-empty list
is the items interspersed with the separator. -/
theorem sign_toString (sign : String) (argsNumber : Int) (args : List Symbol)
    (hargs : args ≠ []) (items : List String) (hitems : items ≠ []) :
    join items sign = .ok (interspersed sign items) ∧
    OperationType.toString (.SignOperationType sign argsNumber) args
      = (Symbol.toStrings args).map (interspersed sign) ∧
    (Symbol.Operation (.SignOperationType sign argsNumber) args).toString
      = (Symbol.toStrings args).map (interspersed sign) := by
  have key : OperationType.toString (.SignOperationType sign argsNumber) args
      = (Symbol.toStrings args).map (interspersed sign) := by
    rw [OperationType.toString]
    cases hs : Symbol.toStrings args with
    | error e => rfl
    | ok strings => exact join_of_ne_nil sign strings (toStrings_ne_nil hargs hs)
  exact ⟨join_of_ne_nil sign items hitems, key, (operation_toString _ _).trans key⟩

theorem sign_toString_witness :
    [Symbol.Variable "x", Symbol.Number 3] ≠ [] ∧ ["a", "b", "c"] ≠ [] ∧
    join ["a", "b", "c"] "+" = .ok "a+b+c" ∧
    OperationType.toString (.SignOperationType "+" 2) [.Variable "x", .Number 3] = .ok "x+3" :=
  ⟨by simp, by simp,
   (sign_toString "+" 2 [.Variable "x", .Number 3] (by simp) ["a", "b", "c"] (by simp)).1,
   (sign_toString "+" 2 [.Variable "x", .Number 3] (by simp) ["a", "b", "c"] (by simp)).2.1⟩

/-- C10: for every name and every non-empty list of children,
`NameOperationType(name, n).toString` renders
`name + "(" + join(childStrings, ", ") + ")"`, the children's renderings
being separated by `", "`. -/
theorem name_toString (name : String) (argsNumber : Int) (args : List Symbol)
    (hargs : args ≠ []) :
    OperationType.toString (.NameOperationType name argsNumber) args
      = (Symbol.toStrings args).map
          (fun strings => name ++ "(" ++ interspersed ", " strings ++ ")") ∧
    (Symbol.Operation (.NameOperationType name argsNumber) args).toString
      = (Symbol.toStrings args).map
          (fun strings => name ++ "(" ++ interspersed ", " strings ++ ")") ∧
    (∀ strings, Symbol.toStrings args = .ok strings →
      OperationType.toString (.NameOperationType name argsNumber) args
        = (join strings ", ").map (fun joined => name ++ "(" ++ joined ++ ")")) := by
  have key : OperationType.toString (.NameOperationType name argsNumber) args
      = (Symbol.toStrings args).map
          (fun strings => name ++ "(" ++ interspersed ", " strings ++ ")") := by
    rw [OperationType.toString]
    cases hs : Symbol.toStrings args with
    | error e => rfl
    | ok strings =>
      simp only [NameOperationType.separator,
        join_of_ne_nil ", " strings (toStrings_ne_nil hargs hs)]
      rfl
  refine ⟨key, (operation_toString _ _).trans key, fun strings hs => ?_⟩
  rw [OperationType.toString, hs]
  simp only [NameOperationType.separator]
  cases join strings ", " <;> rfl

theorem name_toString_witness :
    [Symbol.Variable "x"] ≠ [] ∧
    OperationType.toString (.NameOperationType "sin" 1) [.Variable "x"] = .ok "sin(x)" :=
  ⟨by simp, (name_toString "sin" 1 [.Variable "x"] (by simp)).1⟩

/-! ## Generation -/

theorem pushBackLoop_invariant {T : Type} (body : GenState → Except Fault T × GenState)
    (P : T → Prop) (E : Fault → Prop) (R : GenState → GenState → Prop)
    (hrefl : ∀ s, R s s) (htrans : ∀ a b c, R a b → R b c → R a c)
    (hbody : ∀ s, R s (body s).2 ∧
      (∀ item, (body s).1 = .ok item → P item) ∧ (∀ e, (body s).1 = .error e → E e)) :
    ∀ (count : Nat) (out : List T) (s : GenState),
      R s (pushBackLoop body count out s).2 ∧
      (∀ result, (pushBackLoop body count out s).1 = .ok result →
        ∃ new, result = out ++ new ∧ new.length = count ∧ ∀ x ∈ new, P x) ∧
      (∀ e, (pushBackLoop body count out s).1 = .error e → E e) := by
  intro count
  induction count with
  | zero =>
    intro out s
    refine ⟨hrefl s, ?_, ?_⟩
    · intro result h
      simp only [pushBackLoop] at h
      cases h
      exact ⟨[], by simp⟩
    · intro e h
      simp only [pushBackLoop] at h
      cases h
  | succ count ih =>
    intro out s
    obtain ⟨hR, hP, hE⟩ := hbody s
    rw [pushBackLoop]
    rcases hb : body s with ⟨r, s1⟩
    rw [hb] at hR hP hE
    cases r with
    | error e =>
      refine ⟨hR, ?_, ?_⟩
      · intro result h; cases h
      · intro e2 h
        cases h
        exact hE e rfl
    | ok item =>
      obtain ⟨hR2, hP2, hE2⟩ := ih (out ++ [item]) s1
      refine ⟨htrans _ _ _ hR hR2, ?_, hE2⟩
      intro result h
      obtain ⟨new, hnew, hlen, hall⟩ := hP2 result h
      refine ⟨item :: new, by simp [hnew], by simp [hlen], ?_⟩
      intro x hx
      rcases List.mem_cons.1 hx with rfl | hx
      · exact hP x rfl
      · exact hall x hx

theorem map_toSymbol_leaf {A : Type} {f : A → Symbol} {x : Except Fault A} {t : Symbol}
    (h : x.map f = .ok t) (hf : ∀ a, (f a).isLeaf = true) : t.isLeaf = true := by
  cases x with
  | error e => cases h
  | ok a => cases h; exact hf a

theorem leaf_height {t : Symbol} (h : t.isLeaf = true) : t.height = 0 := by
  cases t with
  | Variable _ => rw [Symbol.height]
  | Number _ => rw [Symbol.height]
  | Operation _ _ => cases h

theorem leaf_arityConsistent {t : Symbol} (h : t.isLeaf = true) : t.arityConsistent = true := by
  cases t with
  | Variable _ => rw [Symbol.arityConsistent]
  | Number _ => rw [Symbol.arityConsistent]
  | Operation _ _ => cases h

theorem heightBelow_le (args : List Symbol) (n : Nat) (h : ∀ t ∈ args, t.height ≤ n) :
    Symbol.heightBelow args ≤ n + 1 := by
  induction args with
  | nil => simp [Symbol.heightBelow]
  | cons t rest ih =>
    rw [Symbol.heightBelow]
    have h1 := h t (List.mem_cons_self _ _)
    have h2 := ih (fun x hx => h x (List.mem_cons_of_mem _ hx))
    omega

theorem allArityConsistent_of_forall (args : List Symbol)
    (h : ∀ t ∈ args, t.arityConsistent = true) : Symbol.allArityConsistent args = true := by
  induction args with
  | nil => rw [Symbol.allArityConsistent]
  | cons t rest ih =>
    rw [Symbol.allArityConsistent, h t (List.mem_cons_self _ _),
      ih (fun x hx => h x (List.mem_cons_of_mem _ hx))]
    rfl

theorem leaf_shaped {t : Symbol} (h : t.isLeaf = true) (depth : Int) : Shaped depth t := by
  refine ⟨leaf_arityConsistent h, fun hd => ?_⟩
  rw [leaf_height h]
  exact_mod_cast hd

theorem generateSymbol_zero (g : OperationGenerator) (draws : Nat → Nat) (depth : Int)
    (s : GenState) : generateSymbol g draws 0 depth s = (.error .fuel, s) := by
  rw [generateSymbol]

theorem generateSymbols_zero (g : OperationGenerator) (draws : Nat → Nat) (depth amount : Int)
    (s : GenState) : generateSymbols g draws 0 depth amount s = (.error .fuel, s) := by
  rw [generateSymbols]

theorem generateOperation_zero (g : OperationGenerator) (draws : Nat → Nat) (depth : Int)
    (s : GenState) : generateOperation g draws 0 depth s = (.error .fuel, s) := by
  rw [generateOperation]

theorem generated_shape (g : OperationGenerator) (draws : Nat → Nat) (fuel : Nat) :
    (∀ depth s t, (generateSymbol g draws fuel depth s).1 = .ok t → Shaped depth t) ∧
    (∀ depth s t, (generateOperation g draws fuel depth s).1 = .ok t →
      t.isLeaf = false ∧ t.arityConsistent = true ∧ (0 < depth → (t.height : Int) ≤ depth)) ∧
    (∀ depth amount s ts, (generateSymbols g draws fuel depth amount s).1 = .ok ts →
      (ts.length : Int) = amount ∧ ∀ t ∈ ts, Shaped depth t) := by
  induction fuel with
  | zero =>
    refine ⟨?_, ?_, ?_⟩
    · intro depth s t h; rw [generateSymbol_zero] at h; cases h
    · intro depth s t h; rw [generateOperation_zero] at h; cases h
    · intro depth amount s ts h; rw [generateSymbols_zero] at h; cases h
  | succ fuel ih =>
    obtain ⟨ihSym, ihOp, ihSyms⟩ := ih
    refine ⟨?_, ?_, ?_⟩
    · intro depth s t h
      rw [generateSymbol] at h
      split_ifs at h with h0 h1 h2 h3
      · exact leaf_shaped (map_toSymbol_leaf h (fun _ => rfl)) depth
      · exact leaf_shaped (map_toSymbol_leaf h (fun _ => rfl)) depth
      · exact leaf_shaped (map_toSymbol_leaf h (fun _ => rfl)) depth
      · exact leaf_shaped (map_toSymbol_leaf h (fun _ => rfl)) depth
      · obtain ⟨_, ha, hh⟩ := ihOp depth _ t h
        exact ⟨ha, fun hd => hh (lt_of_le_of_ne hd (Ne.symm h0))⟩
    · intro depth s t h
      rw [generateOperation] at h
      split at h
      · cases h
      · rename_i type s1 _
        split at h
        · cases h
        · rename_i args s2 hargs
          cases h
          obtain ⟨hlen, hall⟩ := ihSyms (depth - 1) type.getArgsNumber s1 args
            (by rw [hargs])
          refine ⟨rfl, ?_, ?_⟩
          · rw [Symbol.arityConsistent, allArityConsistent_of_forall args (fun x hx => (hall x hx).1)]
            simp [hlen]
          · intro hd
            rw [Symbol.height]
            have := heightBelow_le args (depth - 1).toNat (fun x hx => by
              have := (hall x hx).2 (by omega)
              omega)
            omega
    · intro depth amount s ts h
      rw [generateSymbols] at h
      by_cases hneg : amount < 0
      · rw [if_pos hneg] at h; cases h
      · rw [if_neg hneg] at h
        obtain ⟨_, hP, _⟩ := pushBackLoop_invariant (generateSymbol g draws fuel depth)
          (Shaped depth) (fun _ => True) (fun _ _ => True) (fun _ => trivial)
          (fun _ _ _ _ _ => trivial)
          (fun s => ⟨trivial, fun item hi => ihSym depth s item hi, fun _ _ => trivial⟩)
          amount.toNat [] (s.enter (.generateSymbols depth amount))
        obtain ⟨new, hnew, hlen, hall⟩ := hP ts h
        rw [List.nil_append] at hnew
        subst hnew
        refine ⟨?_, hall⟩
        rw [hlen]
        omega

theorem Call.within_mono {a b a1 b1 : Int} (ha : a ≤ a1) (hb : b ≤ b1) {c : Call}
    (h : c.within a b) : c.within a1 b1 := by
  cases c <;> simp only [Call.within] at h ⊢ <;> omega

theorem Extends.refl (a b : Int) (s : GenState) : Extends a b s s :=
  ⟨[], by simp, by simp⟩

theorem Extends.trans {a b : Int} {s s1 s2 : GenState} (h1 : Extends a b s s1)
    (h2 : Extends a b s1 s2) : Extends a b s s2 := by
  obtain ⟨e1, he1, hw1⟩ := h1
  obtain ⟨e2, he2, hw2⟩ := h2
  refine ⟨e1 ++ e2, by rw [he2, he1, List.append_assoc], ?_⟩
  intro c hc
  rcases List.mem_append.1 hc with hc | hc
  · exact hw1 c hc
  · exact hw2 c hc

theorem Extends.mono {a b a1 b1 : Int} (ha : a ≤ a1) (hb : b ≤ b1) {s s1 : GenState}
    (h : Extends a b s s1) : Extends a1 b1 s s1 := by
  obtain ⟨e, he, hw⟩ := h
  exact ⟨e, he, fun c hc => Call.within_mono ha hb (hw c hc)⟩

theorem Extends.enter {a b : Int} (s : GenState) (c : Call) (h : c.within a b) :
    Extends a b s (s.enter c) :=
  ⟨[c], rfl, by simpa using h⟩

theorem cumulativeIndex_lt (weights : List Nat) (r : Nat) (h : r < weights.sum) :
    cumulativeIndex weights r < weights.length := by
  induction weights generalizing r with
  | nil => simp at h
  | cons w ws ih =>
    rw [cumulativeIndex]
    split_ifs with hrw
    · simp
    · have := ih (r - w) (by simp only [List.sum_cons] at h; omega)
      simp only [List.length_cons]
      omega

theorem discrete_distribution_lt (weights : List Nat) (r : Nat) :
    discrete_distribution weights r < max 1 weights.length := by
  rw [discrete_distribution]
  split_ifs with h
  · omega
  · have := cumulativeIndex_lt weights (r % weights.sum) (Nat.mod_lt _ (Nat.pos_of_ne_zero h))
    omega

theorem choice_state {T : Type} (items : List T) (weights : List Nat) (draws : Nat → Nat)
    (s : GenState) :
    (choice items weights draws s).2 = { s with drawn := s.drawn + 1 } := by
  rw [choice]
  split <;> rfl

theorem choice_error {T : Type} (items : List T) (weights : List Nat) (draws : Nat → Nat)
    (s : GenState) (e : Fault) (h : (choice items weights draws s).1 = .error e) :
    e = .out_of_bounds ∧ ¬ (items ≠ [] ∧ weights.length ≤ items.length) := by
  rw [choice] at h
  split at h
  · cases h
  · rename_i hnone
    cases h
    refine ⟨rfl, ?_⟩
    rintro ⟨hne, hlen⟩
    have hidx := discrete_distribution_lt weights (draws s.drawn)
    have hpos : 0 < items.length := List.length_pos.2 hne
    rw [List.getElem?_eq_none_iff] at hnone
    simp only [sample] at hnone
    omega

theorem choice_mem {T : Type} (items : List T) (weights : List Nat) (draws : Nat → Nat)
    (s : GenState) (x : T) (h : (choice items weights draws s).1 = .ok x) : x ∈ items := by
  rw [choice] at h
  split at h
  · rename_i item hsome
    cases h
    exact List.getElem?_mem hsome
  · cases h

theorem map_error {A B : Type} {f : A → B} {x : Except Fault A} {e : Fault}
    (h : x.map f = .error e) : x = .error e := by
  cases x with
  | error e1 => cases h; rfl
  | ok a => cases h

theorem leafRun_variable (g : OperationGenerator) (draws : Nat → Nat) (depth : Int)
    (s : GenState) (weights : List Nat) (c1 : Call) (h1 : ∀ a b, Call.within a b c1) :
    LeafRun g depth s
      ((generateVariable g draws
          (sample draws weights ((s.enter (.generateSymbol depth)).enter c1)).2).1.map
        Variable.toSymbol,
       (generateVariable g draws
          (sample draws weights ((s.enter (.generateSymbol depth)).enter c1)).2).2) := by
  refine ⟨c1, .generateVariable, h1, fun _ _ => trivial, ?_, ?_, ?_, ?_⟩
  · simp [generateVariable, choice_state, sample, GenState.enter]
  · simp [generateVariable, choice_state, sample, GenState.enter]
  · intro t h
    exact map_toSymbol_leaf h (fun _ => rfl)
  · intro e h
    obtain ⟨he, hn⟩ := choice_error _ _ _ _ e (map_error h)
    exact ⟨he, fun hw => hn hw.1⟩

theorem leafRun_number (g : OperationGenerator) (draws : Nat → Nat) (depth : Int)
    (s : GenState) (weights : List Nat) (c1 : Call) (h1 : ∀ a b, Call.within a b c1) :
    LeafRun g depth s
      ((generateNumber g draws
          (sample draws weights ((s.enter (.generateSymbol depth)).enter c1)).2).1.map
        Number.toSymbol,
       (generateNumber g draws
          (sample draws weights ((s.enter (.generateSymbol depth)).enter c1)).2).2) := by
  refine ⟨c1, .generateNumber, h1, fun _ _ => trivial, ?_, ?_, ?_, ?_⟩
  · simp [generateNumber, choice_state, sample, GenState.enter]
  · simp [generateNumber, choice_state, sample, GenState.enter]
  · intro t h
    exact map_toSymbol_leaf h (fun _ => rfl)
  · intro e h
    obtain ⟨he, hn⟩ := choice_error _ _ _ _ e (map_error h)
    exact ⟨he, fun hw => hn hw.2.1⟩

/-- One step of `generateSymbol`: either a leaf run, or (only when the depth
is not 0) the any-depth index was drawn and the result is that of
`generateOperation` at the same depth. -/
theorem generateSymbol_succ_cases (g : OperationGenerator) (draws : Nat → Nat) (fuel : Nat)
    (depth : Int) (s : GenState) :
    LeafRun g depth s (generateSymbol g draws (fuel + 1) depth s) ∨
    (depth ≠ 0 ∧ ∃ s1, s1.calls = s.calls ++ [.generateSymbol depth, .generateAnyDepthObjectIndex] ∧
      s1.drawn = s.drawn + 1 ∧
      generateSymbol g draws (fuel + 1) depth s = generateOperation g draws fuel depth s1) := by
  rw [generateSymbol]
  split_ifs with h0 h1 h2 h3
  · exact Or.inl (leafRun_variable g draws depth s _ _ (fun _ _ => trivial))
  · exact Or.inl (leafRun_number g draws depth s _ _ (fun _ _ => trivial))
  · exact Or.inl (leafRun_variable g draws depth s _ _ (fun _ _ => trivial))
  · exact Or.inl (leafRun_number g draws depth s _ _ (fun _ _ => trivial))
  · refine Or.inr ⟨h0, _, ?_, ?_, rfl⟩
    · simp [generateAnyDepthObjectIndex, sample, GenState.enter]
    · simp [generateAnyDepthObjectIndex, sample, GenState.enter]

theorem LeafRun.extends {g : OperationGenerator} {depth : Int} {s : GenState}
    {r : Except Fault Symbol × GenState} (h : LeafRun g depth s r) (hd : 0 ≤ depth) :
    Extends depth depth s r.2 := by
  obtain ⟨c1, c2, h1, h2, hc, _⟩ := h
  refine ⟨_, hc, ?_⟩
  intro c hmem
  simp only [List.mem_cons, List.mem_singleton, List.not_mem_nil, or_false] at hmem
  rcases hmem with rfl | rfl | rfl
  · exact ⟨hd, le_refl _⟩
  · exact h1 _ _
  · exact h2 _ _

theorem generated_run (g : OperationGenerator) (draws : Nat → Nat) (fuel : Nat) :
    (∀ depth s, 0 ≤ depth →
      Extends depth depth s (generateSymbol g draws fuel depth s).2 ∧
      (3 * depth.toNat + 1 ≤ fuel → ∀ e, (generateSymbol g draws fuel depth s).1 = .error e →
        e ≠ .fuel ∧ ¬ g.wellFormed)) ∧
    (∀ depth s, 0 < depth →
      Extends (depth - 1) depth s (generateOperation g draws fuel depth s).2 ∧
      (3 * depth.toNat ≤ fuel → ∀ e, (generateOperation g draws fuel depth s).1 = .error e →
        e ≠ .fuel ∧ ¬ g.wellFormed)) ∧
    (∀ depth amount s, 0 ≤ depth →
      Extends depth depth s (generateSymbols g draws fuel depth amount s).2 ∧
      (3 * depth.toNat + 2 ≤ fuel → ∀ e,
        (generateSymbols g draws fuel depth amount s).1 = .error e →
        e ≠ .fuel ∧ (0 ≤ amount → ¬ g.wellFormed))) := by
  induction fuel with
  | zero =>
    refine ⟨?_, ?_, ?_⟩
    · intro depth s hd
      rw [generateSymbol_zero]
      exact ⟨Extends.refl _ _ _, fun hf => by omega⟩
    · intro depth s hd
      rw [generateOperation_zero]
      exact ⟨Extends.refl _ _ _, fun hf => by omega⟩
    · intro depth amount s hd
      rw [generateSymbols_zero]
      exact ⟨Extends.refl _ _ _, fun hf => by omega⟩
  | succ fuel ih =>
    obtain ⟨ihSym, ihOp, ihSyms⟩ := ih
    refine ⟨?_, ?_, ?_⟩
    · intro depth s hd
      rcases generateSymbol_succ_cases g draws fuel depth s with hleaf | ⟨h0, s1, hcalls, _, heq⟩
      · refine ⟨hleaf.extends hd, fun _ e he => ?_⟩
        obtain ⟨_, _, _, _, _, _, _, herr⟩ := hleaf
        obtain ⟨h1, h2⟩ := herr e he
        exact ⟨by rw [h1]; decide, h2⟩
      · have hpos : 0 < depth := lt_of_le_of_ne hd (Ne.symm h0)
        rw [heq]
        obtain ⟨hext, hfault⟩ := ihOp depth s1 hpos
        refine ⟨?_, fun hf => hfault (by omega)⟩
        have hfirst : Extends depth depth s s1 := by
          refine ⟨_, hcalls, ?_⟩
          intro c hmem
          simp only [List.mem_cons, List.mem_singleton, List.not_mem_nil, or_false] at hmem
          rcases hmem with rfl | rfl
          · exact ⟨hd, le_refl _⟩
          · trivial
        exact hfirst.trans (hext.mono (by omega) (le_refl _))
    · intro depth s hd
      rw [generateOperation]
      have hentry : Extends (depth - 1) depth s (s.enter (.generateOperation depth)) :=
        Extends.enter s _ ⟨hd, le_refl _⟩
      have htype : (generateOperationType g draws (s.enter (.generateOperation depth))).2.calls
          = (s.enter (.generateOperation depth)).calls ++ [.generateOperationType] := by
        simp [generateOperationType, choice_state, GenState.enter]
      have hstep : Extends (depth - 1) depth s
          (generateOperationType g draws (s.enter (.generateOperation depth))).2 :=
        hentry.trans ⟨_, htype, by simp [Call.within]⟩
      split
      · rename_i e s1 heq
        rw [heq] at hstep
        refine ⟨hstep, fun _ e2 he2 => ?_⟩
        cases he2
        have h1 : (generateOperationType g draws (s.enter (.generateOperation depth))).1
            = .error e := by rw [heq]
        obtain ⟨he, hn⟩ := choice_error _ _ _ _ e h1
        exact ⟨by rw [he]; decide, fun hw => hn hw.2.2.1⟩
      · rename_i type s1 heq
        rw [heq] at hstep
        have h1 : (generateOperationType g draws (s.enter (.generateOperation depth))).1
            = .ok type := by rw [heq]
        have hmem : type ∈ g.operationTypes := choice_mem _ _ _ _ type h1
        obtain ⟨hext, hfault⟩ := ihSyms (depth - 1) type.getArgsNumber s1 (by omega)
        split
        · rename_i e s2 heq2
          rw [heq2] at hext hfault
          refine ⟨hstep.trans (hext.mono (le_refl _) (by omega)), fun hf e2 he2 => ?_⟩
          cases he2
          obtain ⟨hne, hw⟩ := hfault (by omega) e rfl
          exact ⟨hne, fun hwf => hw (hwf.2.2.2 type hmem) hwf⟩
        · rename_i args s2 heq2
          rw [heq2] at hext
          refine ⟨hstep.trans (hext.mono (le_refl _) (by omega)), fun _ e2 he2 => ?_⟩
          cases he2
    · intro depth amount s hd
      rw [generateSymbols]
      have hentry : Extends depth depth s (s.enter (.generateSymbols depth amount)) :=
        Extends.enter s _ ⟨hd, le_refl _⟩
      by_cases hneg : amount < 0
      · rw [if_pos hneg]
        refine ⟨hentry, fun _ e he => ?_⟩
        cases he
        exact ⟨by decide, fun h => by omega⟩
      · rw [if_neg hneg]
        obtain ⟨hR, _, _⟩ := pushBackLoop_invariant (generateSymbol g draws fuel depth)
          (fun _ => True) (fun _ => True) (Extends depth depth) (Extends.refl _ _)
          (fun _ _ _ h1 h2 => h1.trans h2)
          (fun s => ⟨(ihSym depth s hd).1, fun _ _ => trivial, fun _ _ => trivial⟩)
          amount.toNat [] (s.enter (.generateSymbols depth amount))
        refine ⟨hentry.trans hR, fun hf e he => ?_⟩
        obtain ⟨_, _, hE⟩ := pushBackLoop_invariant (generateSymbol g draws fuel depth)
          (fun _ => True) (fun e => e ≠ .fuel ∧ ¬ g.wellFormed) (fun _ _ => True)
          (fun _ => trivial) (fun _ _ _ _ _ => trivial)
          (fun s => ⟨trivial, fun _ _ => trivial, (ihSym depth s hd).2 (by omega)⟩)
          amount.toNat [] (s.enter (.generateSymbols depth amount))
        exact ⟨(hE e he).1, fun _ => (hE e he).2⟩

theorem new_wellFormed (variablesAndWeights : List (Variable × Nat))
    (operationTypesAndWeights : List (OperationType × Nat))
    (numbersAndWeights : List (Number × Nat)) (objectsAndWeights : List (String × Nat))
    (hv : variablesAndWeights ≠ []) (ho : operationTypesAndWeights ≠ [])
    (hn : numbersAndWeights ≠ [])
    (harity : ∀ p ∈ operationTypesAndWeights, 0 ≤ p.1.getArgsNumber) :
    (OperationGenerator.new variablesAndWeights operationTypesAndWeights numbersAndWeights
      objectsAndWeights).wellFormed := by
  refine ⟨⟨?_, ?_⟩, ⟨?_, ?_⟩, ⟨?_, ?_⟩, ?_⟩
  · simpa [OperationGenerator.new] using hv
  · simp [OperationGenerator.new]
  · simpa [OperationGenerator.new] using hn
  · simp [OperationGenerator.new]
  · simpa [OperationGenerator.new] using ho
  · simp [OperationGenerator.new]
  · intro t ht
    simp only [OperationGenerator.new, List.unzip_eq_map, List.mem_map] at ht
    obtain ⟨p, hp, rfl⟩ := ht
    exact harity p hp

theorem demoGenerator_wellFormed : demoGenerator.wellFormed := by
  refine new_wellFormed _ _ _ _ (by simp) (by simp) (by simp) ?_
  intro p hp
  simp only [List.mem_cons, List.mem_singleton, List.not_mem_nil, or_false] at hp
  rcases hp with rfl | rfl | rfl <;> simp [OperationType.getArgsNumber]

theorem returns_of_no_error {A : Type} {x : Except Fault A} (h : ∀ e, x ≠ .error e) :
    ∃ a, x = .ok a := by
  cases x with
  | error e => exact absurd rfl (h e)
  | ok a => exact ⟨a, rfl⟩

theorem generateSymbol_returns (g : OperationGenerator) (draws : Nat → Nat) (fuel : Nat)
    (depth : Int) (s : GenState) (hdepth : 0 ≤ depth) (hg : g.wellFormed)
    (hfuel : 3 * depth.toNat + 1 ≤ fuel) :
    ∃ t, (generateSymbol g draws fuel depth s).1 = .ok t :=
  returns_of_no_error (fun e he =>
    (((generated_run g draws fuel).1 depth s hdepth).2 hfuel e he).2 hg)

/-- C1: for every depth `≥ 0`, every catalogue, every category-weight map and
every sequence of draws, a tree returned by `generateSymbol(depth)` has height
(edges from the root to the deepest leaf) at most `depth`; and from
well-formed catalogues, with fuel for the `3 * depth + 1` nested calls, a tree
is returned. -/
theorem generateSymbol_height_le_depth (g : OperationGenerator) (draws : Nat → Nat)
    (fuel : Nat) (depth : Int) (s : GenState) (hdepth : 0 ≤ depth) :
    (∀ t, (generateSymbol g draws fuel depth s).1 = .ok t → (t.height : Int) ≤ depth) ∧
    (g.wellFormed → 3 * depth.toNat + 1 ≤ fuel →
      ∃ t, (generateSymbol g draws fuel depth s).1 = .ok t ∧ (t.height : Int) ≤ depth) := by
  have hshape : ∀ t, (generateSymbol g draws fuel depth s).1 = .ok t →
      (t.height : Int) ≤ depth :=
    fun t ht => ((generated_shape g draws fuel).1 depth s t ht).2 hdepth
  refine ⟨hshape, fun hg hfuel => ?_⟩
  obtain ⟨t, ht⟩ := generateSymbol_returns g draws fuel depth s hdepth hg hfuel
  exact ⟨t, ht, hshape t ht⟩

theorem generateSymbol_height_le_depth_witness :
    (0 : Int) ≤ 2 ∧
    ∃ t, (generateSymbol demoGenerator (listDraws [2, 2, 4, 0, 1]) 7 2 GenState.initial).1
        = .ok t ∧ (t.height : Int) ≤ 2 :=
  ⟨by decide,
   (generateSymbol_height_le_depth demoGenerator (listDraws [2, 2, 4, 0, 1]) 7 2
      GenState.initial (by decide)).2 demoGenerator_wellFormed (by decide)⟩

/-- C2: for every category-weight map and every draw, what `generateSymbol(0)`
returns is a `Variable` or a `Number`, never an `Operation`: the zero-depth
distribution has two weights, the only calls made are
`generateZeroDepthObjectIndex` followed by `generateVariable` or
`generateNumber`, and from well-formed catalogues a leaf is returned. -/
theorem generateSymbol_depth_zero_leaf (g : OperationGenerator) (draws : Nat → Nat)
    (fuel : Nat) (s : GenState) :
    (∀ t, (generateSymbol g draws fuel 0 s).1 = .ok t → t.isLeaf = true) ∧
    g.zeroDepthWeights.length = 2 ∧
    (∃ leafCall, (leafCall = Call.generateVariable ∨ leafCall = Call.generateNumber) ∧
      (generateSymbol g draws (fuel + 1) 0 s).2.calls
        = s.calls ++ [.generateSymbol 0, .generateZeroDepthObjectIndex, leafCall]) ∧
    (g.wellFormed → ∃ t, (generateSymbol g draws (fuel + 1) 0 s).1 = .ok t ∧ t.isLeaf = true) := by
  have hleaf : ∀ fuel1 t, (generateSymbol g draws fuel1 0 s).1 = .ok t → t.isLeaf = true := by
    intro fuel1 t ht
    cases fuel1 with
    | zero => rw [generateSymbol_zero] at ht; cases ht
    | succ n =>
      rcases generateSymbol_succ_cases g draws n 0 s with h | ⟨h0, _⟩
      · obtain ⟨_, _, _, _, _, _, hl, _⟩ := h
        exact hl t ht
      · exact absurd rfl h0
  refine ⟨hleaf fuel, rfl, ?_, fun hg => ?_⟩
  · rw [generateSymbol, if_pos rfl]
    split_ifs
    · exact ⟨_, Or.inl rfl, by
        simp [generateVariable, generateZeroDepthObjectIndex, choice_state, sample,
          GenState.enter]⟩
    · exact ⟨_, Or.inr rfl, by
        simp [generateNumber, generateZeroDepthObjectIndex, choice_state, sample,
          GenState.enter]⟩
  · obtain ⟨t, ht⟩ := generateSymbol_returns g draws (fuel + 1) 0 s (le_refl _) hg
      (by simp)
    exact ⟨t, ht, hleaf _ t ht⟩

theorem generateSymbol_depth_zero_leaf_witness :
    ∃ t, (generateSymbol demoGenerator (listDraws [1, 0]) 1 0 GenState.initial).1
        = .ok t ∧ t.isLeaf = true :=
  (generateSymbol_depth_zero_leaf demoGenerator (listDraws [1, 0]) 0 GenState.initial).2.2.2
    demoGenerator_wellFormed

/-- C3: in every tree returned by `generateSymbol(depth)` or
`generateOperation(depth)` every `Operation` node, at any level, has as many
children as `getArgsNumber()` of its type; the root returned by
`generateOperation` carries a type of the catalogue.  The premise of
non-negative arities is not needed for this (a negative arity makes `reserve`
throw, so no tree is returned); it is part of well-formedness, under which a
tree is returned. -/
theorem generated_arityConsistent (g : OperationGenerator) (draws : Nat → Nat) (fuel : Nat)
    (depth : Int) (s : GenState) :
    (∀ t, (generateSymbol g draws fuel depth s).1 = .ok t → t.arityConsistent = true) ∧
    (∀ t, (generateOperation g draws fuel depth s).1 = .ok t →
      t.arityConsistent = true ∧
      ∃ type args, t = .Operation type args ∧ type ∈ g.operationTypes ∧
        (args.length : Int) = type.getArgsNumber) ∧
    (g.wellFormed → 0 ≤ depth → 3 * depth.toNat + 1 ≤ fuel →
      ∃ t, (generateSymbol g draws fuel depth s).1 = .ok t ∧ t.arityConsistent = true) := by
  have hsym : ∀ t, (generateSymbol g draws fuel depth s).1 = .ok t →
      t.arityConsistent = true :=
    fun t ht => ((generated_shape g draws fuel).1 depth s t ht).1
  refine ⟨hsym, fun t ht => ?_, fun hg hdepth hfuel => ?_⟩
  · refine ⟨((generated_shape g draws fuel).2.1 depth s t ht).2.1, ?_⟩
    cases fuel with
    | zero => rw [generateOperation_zero] at ht; cases ht
    | succ n =>
      rw [generateOperation] at ht
      split at ht
      · cases ht
      · rename_i type s1 heq
        split at ht
        · cases ht
        · rename_i args s2 hargs
          cases ht
          have h1 : (generateOperationType g draws (s.enter (.generateOperation depth))).1
              = .ok type := by rw [heq]
          refine ⟨type, args, rfl, choice_mem _ _ _ _ type h1, ?_⟩
          exact ((generated_shape g draws n).2.2 (depth - 1) type.getArgsNumber s1 args
            (by rw [hargs])).1
  · obtain ⟨t, ht⟩ := generateSymbol_returns g draws fuel depth s hdepth hg hfuel
    exact ⟨t, ht, hsym t ht⟩

theorem generated_arityConsistent_witness :
    (generateOperation demoGenerator (listDraws [0, 2, 1, 0, 0, 1, 0]) 6 2 GenState.initial).1
        = .ok (.Operation (.SignOperationType "+" 2)
            [.Operation (.SignOperationType "*" 2) [.Variable "x", .Number 3], .Variable "x"]) ∧
    (Symbol.Operation (.SignOperationType "+" 2)
        [.Operation (.SignOperationType "*" 2) [.Variable "x", .Number 3],
          .Variable "x"]).arityConsistent = true :=
  ⟨rfl, ((generated_arityConsistent demoGenerator (listDraws [0, 2, 1, 0, 0, 1, 0]) 6 2
      GenState.initial).2.1 _ rfl).1⟩

theorem Call.within_explicit {depth : Int} {c : Call} (h : c.within (depth - 1) depth) :
    (∀ d, c = .generateSymbol d → 0 ≤ d ∧ d < depth) ∧
    (∀ d n, c = .generateSymbols d n → 0 ≤ d ∧ d < depth) ∧
    (∀ d, c = .generateOperation d → 0 < d ∧ d ≤ depth) := by
  refine ⟨?_, ?_, ?_⟩
  · rintro d rfl
    simp only [Call.within] at h
    omega
  · rintro d n rfl
    simp only [Call.within] at h
    omega
  · rintro d rfl
    simp only [Call.within] at h
    omega

/-- C4: for every depth `≥ 0` the recursion started by `generateSymbol(depth)`
is bounded by the depth argument: every call of `generateSymbol` nested in it
has a depth `d` with `0 ≤ d < depth`, every nested `generateOperation` has a
depth `d` with `0 < d ≤ depth` (never 0), and with fuel for `3 * depth + 1`
nested calls the run never exhausts the fuel, whatever the draws. -/
theorem generateSymbol_recursion_bounded (g : OperationGenerator) (draws : Nat → Nat)
    (fuel : Nat) (depth : Int) (s : GenState) (hdepth : 0 ≤ depth) :
    (∃ nested, (generateSymbol g draws (fuel + 1) depth s).2.calls
        = s.calls ++ Call.generateSymbol depth :: nested ∧
      ∀ c ∈ nested,
        (∀ d, c = .generateSymbol d → 0 ≤ d ∧ d < depth) ∧
        (∀ d n, c = .generateSymbols d n → 0 ≤ d ∧ d < depth) ∧
        (∀ d, c = .generateOperation d → 0 < d ∧ d ≤ depth)) ∧
    (3 * depth.toNat + 1 ≤ fuel → (generateSymbol g draws fuel depth s).1 ≠ .error .fuel) := by
  refine ⟨?_, fun hfuel he =>
    (((generated_run g draws fuel).1 depth s hdepth).2 hfuel _ he).1 rfl⟩
  rcases generateSymbol_succ_cases g draws fuel depth s with hleaf | ⟨h0, s1, hcalls, _, heq⟩
  · obtain ⟨c1, c2, h1, h2, hc, _⟩ := hleaf
    refine ⟨[c1, c2], hc, ?_⟩
    intro c hmem
    simp only [List.mem_cons, List.mem_singleton, List.not_mem_nil, or_false] at hmem
    rcases hmem with rfl | rfl
    · exact Call.within_explicit (h1 _ _)
    · exact Call.within_explicit (h2 _ _)
  · have hpos : 0 < depth := lt_of_le_of_ne hdepth (Ne.symm h0)
    obtain ⟨ext, hext, hw⟩ := ((generated_run g draws fuel).2.1 depth s1 hpos).1
    refine ⟨.generateAnyDepthObjectIndex :: ext, ?_, ?_⟩
    · rw [heq, hext, hcalls]
      simp
    · intro c hmem
      rcases List.mem_cons.1 hmem with rfl | hmem
      · exact Call.within_explicit trivial
      · exact Call.within_explicit (hw c hmem)

theorem generateSymbol_recursion_bounded_witness :
    (0 : Int) ≤ 2 ∧
    (generateSymbol demoGenerator (listDraws [2, 2, 4, 0, 1]) 7 2 GenState.initial).1
      ≠ .error .fuel :=
  ⟨by decide,
   (generateSymbol_recursion_bounded demoGenerator (listDraws [2, 2, 4, 0, 1]) 7 2
      GenState.initial (by decide)).2 (by decide)⟩

/-- C6, failing input: `generateOperation(0)` on the demo catalogue with draws
2, 2, 2, 0, 0 returns `sin(sin(x))`: the child of the root is an `Operation`
and the height is 2. -/
theorem generateOperation_depth_zero_nested :
    (generateOperation demoGenerator (listDraws [2, 2, 2, 0, 0]) 6 0 GenState.initial).1
      = .ok (.Operation (.NameOperationType "sin" 1)
          [.Operation (.NameOperationType "sin" 1) [.Variable "x"]]) ∧
    (Symbol.Operation (.NameOperationType "sin" 1)
      [.Operation (.NameOperationType "sin" 1) [.Variable "x"]]).height = 2 := by
  exact ⟨rfl, rfl⟩

/-- C7, counterexample: `choice(["A"], [0])` returns `"A"`. -/
theorem choice_zero_weight_returns :
    (choice ["A"] [0] (listDraws [0]) GenState.initial).1 = .ok "A" := by
  rfl

/-- C7, amended: `choice` has no distribution check.  With no items it
returns no value because `items[index]` is read out of bounds; with at least
one item and no more weights than items it returns an element of `items`,
also when all weights are zero; an out-of-bounds read is its only failure. -/
theorem choice_unchecked {T : Type} (items : List T) (weights : List Nat)
    (draws : Nat → Nat) (s : GenState) :
    (items = [] → (choice items weights draws s).1 = .error .out_of_bounds) ∧
    (items ≠ [] → weights.length ≤ items.length →
      ∃ item ∈ items, (choice items weights draws s).1 = .ok item) ∧
    (∀ e, (choice items weights draws s).1 = .error e → e = .out_of_bounds) := by
  refine ⟨fun h => ?_, fun hne hlen => ?_, fun e he => (choice_error _ _ _ _ e he).1⟩
  · subst h
    rw [choice]
    rfl
  · obtain ⟨item, hitem⟩ := returns_of_no_error (x := (choice items weights draws s).1)
      (fun e he => (choice_error _ _ _ _ e he).2 ⟨hne, hlen⟩)
    exact ⟨item, choice_mem _ _ _ _ item hitem, hitem⟩

theorem choice_unchecked_witness :
    (choice ([] : List String) [] (listDraws [0]) GenState.initial).1 = .error .out_of_bounds ∧
    ∃ item ∈ ["A"], (choice ["A"] [0] (listDraws [0]) GenState.initial).1 = .ok item :=
  ⟨(choice_unchecked ([] : List String) [] (listDraws [0]) GenState.initial).1 rfl,
   (choice_unchecked ["A"] [0] (listDraws [0]) GenState.initial).2.1 (by simp) (by simp)⟩

/-! ## Batches -/

theorem pushBackLoop_eq_successiveResults {T : Type}
    (body : GenState → Except Fault T × GenState) (count : Nat) (out : List T)
    (s : GenState) :
    pushBackLoop body count out s = appendedTo out (successiveResults body count s) := by
  induction count generalizing out s with
  | zero => simp [pushBackLoop, successiveResults, appendedTo]
  | succ count ih =>
    rw [pushBackLoop, successiveResults]
    rcases hb : body s with ⟨r, s1⟩
    cases r with
    | error e => rfl
    | ok item =>
      simp only []
      rw [ih]
      rcases successiveResults body count s1 with ⟨r2, s2⟩
      cases r2 with
      | error e => rfl
      | ok items => simp [appendedTo]

theorem appendedTo_nil {T : Type} (r : Except Fault (List T) × GenState) :
    appendedTo [] r = r := by
  rcases r with ⟨r, s⟩
  cases r <;> simp [appendedTo]

theorem successiveResults_length {T : Type} (body : GenState → Except Fault T × GenState)
    (count : Nat) (s : GenState) (items : List T)
    (h : (successiveResults body count s).1 = .ok items) : items.length = count := by
  induction count generalizing s items with
  | zero =>
    rw [successiveResults] at h
    cases h
    rfl
  | succ count ih =>
    rw [successiveResults] at h
    split at h
    · cases h
    · rename_i item s1 _
      split at h
      · cases h
      · rename_i rest s2 hrest
        cases h
        have := ih s1 rest (by rw [hrest])
        simp [this]

theorem successiveResults_returns {T : Type} (body : GenState → Except Fault T × GenState)
    (hbody : ∀ s, ∃ item, (body s).1 = .ok item) (count : Nat) (s : GenState) :
    ∃ items, (successiveResults body count s).1 = .ok items := by
  induction count generalizing s with
  | zero => exact ⟨[], rfl⟩
  | succ count ih =>
    obtain ⟨item, hitem⟩ := hbody s
    rw [successiveResults]
    rcases hb : body s with ⟨r, s1⟩
    rw [hb] at hitem
    cases hitem
    obtain ⟨items, hitems⟩ := ih s1
    rcases hr : successiveResults body count s1 with ⟨r2, s2⟩
    rw [hr] at hitems
    cases hitems
    exact ⟨item :: items, by simp only [hr]⟩

theorem generateOperation_returns (g : OperationGenerator) (draws : Nat → Nat) (fuel : Nat)
    (depth : Int) (s : GenState) (hdepth : 0 < depth) (hg : g.wellFormed)
    (hfuel : 3 * depth.toNat ≤ fuel) :
    ∃ t, (generateOperation g draws fuel depth s).1 = .ok t :=
  returns_of_no_error (fun e he =>
    (((generated_run g draws fuel).2.1 depth s hdepth).2 hfuel e he).2 hg)

/-- C11: for every depth `≥ 1` and amount `≥ 0`, `generateOperations(depth,
amount)` and `generateSymbols(depth, amount)` return what `amount` successive
calls of `generateOperation(depth)`, resp. `generateSymbol(depth)`, return, in
call order; a returned list has exactly `amount` trees, and from well-formed
catalogues with enough fuel a list is returned. -/
theorem generate_batches (g : OperationGenerator) (draws : Nat → Nat) (fuel : Nat)
    (depth amount : Int) (s : GenState) (hdepth : 1 ≤ depth) (hamount : 0 ≤ amount) :
    generateOperations g draws fuel depth amount s
      = successiveResults (generateOperation g draws fuel depth) amount.toNat
          (s.enter (.generateOperations depth amount)) ∧
    generateSymbols g draws (fuel + 1) depth amount s
      = successiveResults (generateSymbol g draws fuel depth) amount.toNat
          (s.enter (.generateSymbols depth amount)) ∧
    (∀ ts, (generateOperations g draws fuel depth amount s).1 = .ok ts →
      (ts.length : Int) = amount) ∧
    (∀ ts, (generateSymbols g draws (fuel + 1) depth amount s).1 = .ok ts →
      (ts.length : Int) = amount) ∧
    (g.wellFormed → 3 * depth.toNat + 1 ≤ fuel →
      (∃ ts, (generateOperations g draws fuel depth amount s).1 = .ok ts) ∧
      (∃ ts, (generateSymbols g draws (fuel + 1) depth amount s).1 = .ok ts)) := by
  have hneg : ¬ amount < 0 := by omega
  have hops : generateOperations g draws fuel depth amount s
      = successiveResults (generateOperation g draws fuel depth) amount.toNat
          (s.enter (.generateOperations depth amount)) := by
    rw [generateOperations, if_neg hneg, pushBackLoop_eq_successiveResults, appendedTo_nil]
  have hsyms : generateSymbols g draws (fuel + 1) depth amount s
      = successiveResults (generateSymbol g draws fuel depth) amount.toNat
          (s.enter (.generateSymbols depth amount)) := by
    rw [generateSymbols, if_neg hneg, pushBackLoop_eq_successiveResults, appendedTo_nil]
  refine ⟨hops, hsyms, fun ts hts => ?_, fun ts hts => ?_, fun hg hfuel => ⟨?_, ?_⟩⟩
  · rw [hops] at hts
    rw [successiveResults_length _ _ _ _ hts]
    omega
  · rw [hsyms] at hts
    rw [successiveResults_length _ _ _ _ hts]
    omega
  · rw [hops]
    exact successiveResults_returns _
      (fun s1 => generateOperation_returns g draws fuel depth s1 (by omega) hg (by omega)) _ _
  · rw [hsyms]
    exact successiveResults_returns _
      (fun s1 => generateSymbol_returns g draws fuel depth s1 (by omega) hg hfuel) _ _

theorem generate_batches_witness :
    (1 : Int) ≤ 1 ∧ (0 : Int) ≤ 2 ∧
    (generateOperations demoGenerator (listDraws [2, 0, 0, 2, 1, 0]) 4 1 2 GenState.initial).1
      = .ok [.Operation (.NameOperationType "sin" 1) [.Variable "x"],
             .Operation (.NameOperationType "sin" 1) [.Number 3]] :=
  ⟨by decide, by decide,
   (congrArg Prod.fst (generate_batches demoGenerator (listDraws [2, 0, 0, 2, 1, 0]) 4 1 2
      GenState.initial (by decide) (by decide)).1).trans rfl⟩

/-! ## The root of `generateOperation` -/

theorem heightBelow_pos (args : List Symbol) (h : args ≠ []) : 1 ≤ Symbol.heightBelow args := by
  cases args with
  | nil => exact absurd rfl h
  | cons symbol rest =>
    rw [Symbol.heightBelow]
    omega

/-- C16: for every depth `≥ 1`, every weight configuration and every sequence
of draws, a tree returned by `generateOperation(depth)` has an `Operation` at
its root, whose type is of the catalogue and has as many children as its
arity; its height is at most `depth`, and at least 1 when the arity is at
least 1.  From well-formed catalogues with enough fuel a tree is returned. -/
theorem generateOperation_root (g : OperationGenerator) (draws : Nat → Nat) (fuel : Nat)
    (depth : Int) (s : GenState) (hdepth : 1 ≤ depth) :
    (∀ t, (generateOperation g draws fuel depth s).1 = .ok t →
      ∃ type args, t = .Operation type args ∧ type ∈ g.operationTypes ∧
        (args.length : Int) = type.getArgsNumber ∧
        (1 ≤ type.getArgsNumber → 1 ≤ t.height) ∧ (t.height : Int) ≤ depth) ∧
    (g.wellFormed → 3 * depth.toNat ≤ fuel →
      ∃ t, (generateOperation g draws fuel depth s).1 = .ok t) := by
  refine ⟨fun t ht => ?_, fun hg hfuel =>
    generateOperation_returns g draws fuel depth s (by omega) hg hfuel⟩
  have hheight := ((generated_shape g draws fuel).2.1 depth s t ht).2.2 (by omega)
  cases fuel with
  | zero => rw [generateOperation_zero] at ht; cases ht
  | succ n =>
    rw [generateOperation] at ht
    split at ht
    · cases ht
    · rename_i type s1 heq
      split at ht
      · cases ht
      · rename_i args s2 hargs
        cases ht
        have h1 : (generateOperationType g draws (s.enter (.generateOperation depth))).1
            = .ok type := by rw [heq]
        have hlen := ((generated_shape g draws n).2.2 (depth - 1) type.getArgsNumber s1 args
          (by rw [hargs])).1
        refine ⟨type, args, rfl, choice_mem _ _ _ _ type h1, hlen, fun harity => ?_, hheight⟩
        rw [Symbol.height]
        apply heightBelow_pos
        intro hnil
        rw [hnil] at hlen
        simp at hlen
        omega

theorem generateOperation_root_witness :
    (1 : Int) ≤ 1 ∧
    ∃ t, (generateOperation demoGenerator (listDraws [2, 0, 0]) 3 1 GenState.initial).1 = .ok t :=
  ⟨by decide,
   (generateOperation_root demoGenerator (listDraws [2, 0, 0]) 3 1 GenState.initial
      (by decide)).2 demoGenerator_wellFormed (by decide)⟩

/-! ## Rendering: ambiguity and failure -/

/-- C18: `toString` is not injective: the two different trees `(x*3)+x` and
`x*(3+x)`, built from binary sign operations, the variable `x` and the number
3, both render as `"x*3+x"`. -/
theorem toString_not_injective :
    productPlusVariable ≠ variableTimesSum ∧
    productPlusVariable.toString = .ok "x*3+x" ∧
    variableTimesSum.toString = .ok "x*3+x" ∧
    ¬ Function.Injective Symbol.toString := by
  have hne : productPlusVariable ≠ variableTimesSum := by
    intro h
    simp [productPlusVariable, variableTimesSum] at h
  exact ⟨hne, rfl, rfl, fun hinj => hne (hinj rfl)⟩

theorem length_pos_of_ne_empty (separator : String) (h : separator ≠ "") :
    0 < separator.length := by
  rcases separator with ⟨data⟩
  cases data with
  | nil => exact absurd rfl h
  | cons c cs => simp [String.length]

theorem join_nil (separator : String) :
    join [] separator = if separator = "" then .ok "" else .error .out_of_range := by
  unfold join
  simp only [List.foldl_nil]
  by_cases h : separator = ""
  · subst h
    rfl
  · rw [if_neg h, if_pos]
    exact length_pos_of_ne_empty separator h

mutual
theorem toString_returns_aux :
    ∀ t : Symbol, t.operationsHaveChildren = true → ∃ r, t.toString = .ok r
  | .Variable name, _ => ⟨name, by rw [Symbol.toString]⟩
  | .Number value, _ => ⟨to_string value, by rw [Symbol.toString]⟩
  | .Operation (.SignOperationType sign n) args, h => by
    rw [Symbol.operationsHaveChildren, Bool.and_eq_true] at h
    obtain ⟨strings, hs⟩ := toStrings_returns_aux args h.2
    have hne : args ≠ [] := by
      intro h0
      rw [h0] at h
      simp at h
    rw [Symbol.toString, hs]
    exact ⟨_, join_of_ne_nil sign strings (toStrings_ne_nil hne hs)⟩
  | .Operation (.NameOperationType name n) args, h => by
    rw [Symbol.operationsHaveChildren, Bool.and_eq_true] at h
    obtain ⟨strings, hs⟩ := toStrings_returns_aux args h.2
    have hne : args ≠ [] := by
      intro h0
      rw [h0] at h
      simp at h
    rw [Symbol.toString, hs]
    simp only [join_of_ne_nil NameOperationType.separator strings (toStrings_ne_nil hne hs)]
    exact ⟨_, rfl⟩
theorem toStrings_returns_aux :
    ∀ l : List Symbol, Symbol.allOperationsHaveChildren l = true →
      ∃ rs, Symbol.toStrings l = .ok rs
  | [], _ => ⟨[], by rw [Symbol.toStrings]⟩
  | t :: rest, h => by
    rw [Symbol.allOperationsHaveChildren, Bool.and_eq_true] at h
    obtain ⟨r, hr⟩ := toString_returns_aux t h.1
    obtain ⟨rs, hrs⟩ := toStrings_returns_aux rest h.2
    rw [Symbol.toStrings, hr, hrs]
    exact ⟨_, rfl⟩
end

/-- C19: `join(items, separator)` fails, with the `out_of_range` of `erase`,
exactly when `items` is empty and the separator is not; so rendering returns
for every tree in which each `Operation` has a child, while an `Operation`
without children fails to render when its type is a `NameOperationType`, or a
`SignOperationType` with a non-empty sign. -/
theorem join_fails_iff (items : List String) (separator : String) :
    ((∃ e, join items separator = .error e) ↔ items = [] ∧ separator ≠ "") ∧
    (∀ e, join items separator = .error e → e = .out_of_range) ∧
    (∀ t : Symbol, t.operationsHaveChildren = true → ∃ r, t.toString = .ok r) ∧
    (∀ name n, (Symbol.Operation (.NameOperationType name n) []).toString
      = .error .out_of_range) ∧
    (∀ sign n, sign ≠ "" → (Symbol.Operation (.SignOperationType sign n) []).toString
      = .error .out_of_range) := by
  have hnil : ∀ sep : String, sep ≠ "" → join [] sep = .error .out_of_range := by
    intro sep hsep
    rw [join_nil, if_neg hsep]
  refine ⟨?_, ?_, toString_returns_aux, ?_, ?_⟩
  · cases items with
    | nil =>
      rw [join_nil]
      by_cases h : separator = ""
      · simp [h]
      · simp [h]
    | cons item rest =>
      rw [join_cons]
      simp
  · intro e he
    cases items with
    | nil =>
      rw [join_nil] at he
      split_ifs at he
      cases he
      rfl
    | cons item rest =>
      rw [join_cons] at he
      cases he
  · intro name n
    rw [Symbol.toString, Symbol.toStrings]
    simp only [hnil NameOperationType.separator (by decide)]
  · intro sign n hsign
    rw [Symbol.toString, Symbol.toStrings]
    exact hnil sign hsign

theorem join_fails_iff_witness :
    (Symbol.Operation (.NameOperationType "pi" 0) []).toString = .error .out_of_range ∧
    ∃ r, productPlusVariable.toString = .ok r :=
  ⟨(join_fails_iff [] "").2.2.2.1 "pi" 0, (join_fails_iff [] "").2.2.1 productPlusVariable rfl⟩

/-! ## Provenance of leaves and operation types -/

theorem map_ok {A B : Type} {f : A → B} {x : Except Fault A} {b : B}
    (h : x.map f = .ok b) : ∃ a, x = .ok a ∧ f a = b := by
  cases x with
  | error e => cases h
  | ok a => cases h; exact ⟨a, rfl, rfl⟩

theorem generateVariable_fromCatalogue (g : OperationGenerator) (draws : Nat → Nat)
    (s : GenState) (t : Symbol)
    (h : (generateVariable g draws s).1.map Variable.toSymbol = .ok t) :
    t.fromCatalogue g = true := by
  obtain ⟨v, hv, rfl⟩ := map_ok h
  have hmem : v ∈ g.variables := choice_mem _ _ _ _ v hv
  rw [Variable.toSymbol, Symbol.fromCatalogue]
  exact decide_eq_true hmem

theorem generateNumber_fromCatalogue (g : OperationGenerator) (draws : Nat → Nat)
    (s : GenState) (t : Symbol)
    (h : (generateNumber g draws s).1.map Number.toSymbol = .ok t) :
    t.fromCatalogue g = true := by
  obtain ⟨n, hn, rfl⟩ := map_ok h
  have hmem : n ∈ g.numbers := choice_mem _ _ _ _ n hn
  rw [Number.toSymbol, Symbol.fromCatalogue]
  exact decide_eq_true hmem

theorem allFromCatalogue_of_forall (g : OperationGenerator) (args : List Symbol)
    (h : ∀ t ∈ args, t.fromCatalogue g = true) : Symbol.allFromCatalogue g args = true := by
  induction args with
  | nil => rw [Symbol.allFromCatalogue]
  | cons t rest ih =>
    rw [Symbol.allFromCatalogue, h t (List.mem_cons_self _ _),
      ih (fun x hx => h x (List.mem_cons_of_mem _ hx))]
    rfl

theorem forall_of_allFromCatalogue (g : OperationGenerator) (args : List Symbol)
    (h : Symbol.allFromCatalogue g args = true) : ∀ t ∈ args, t.fromCatalogue g = true := by
  induction args with
  | nil => intro t ht; cases ht
  | cons a rest ih =>
    rw [Symbol.allFromCatalogue, Bool.and_eq_true] at h
    intro t ht
    rcases List.mem_cons.1 ht with rfl | ht
    · exact h.1
    · exact ih h.2 t ht

theorem generated_fromCatalogue (g : OperationGenerator) (draws : Nat → Nat) (fuel : Nat) :
    (∀ depth s t, (generateSymbol g draws fuel depth s).1 = .ok t →
      t.fromCatalogue g = true) ∧
    (∀ depth s t, (generateOperation g draws fuel depth s).1 = .ok t →
      t.fromCatalogue g = true) ∧
    (∀ depth amount s ts, (generateSymbols g draws fuel depth amount s).1 = .ok ts →
      ∀ t ∈ ts, t.fromCatalogue g = true) := by
  induction fuel with
  | zero =>
    refine ⟨?_, ?_, ?_⟩
    · intro depth s t h; rw [generateSymbol_zero] at h; cases h
    · intro depth s t h; rw [generateOperation_zero] at h; cases h
    · intro depth amount s ts h; rw [generateSymbols_zero] at h; cases h
  | succ fuel ih =>
    obtain ⟨ihSym, ihOp, ihSyms⟩ := ih
    refine ⟨?_, ?_, ?_⟩
    · intro depth s t h
      rw [generateSymbol] at h
      split_ifs at h with h0 h1 h2 h3
      · exact generateVariable_fromCatalogue g draws _ t h
      · exact generateNumber_fromCatalogue g draws _ t h
      · exact generateVariable_fromCatalogue g draws _ t h
      · exact generateNumber_fromCatalogue g draws _ t h
      · exact ihOp depth _ t h
    · intro depth s t h
      rw [generateOperation] at h
      split at h
      · cases h
      · rename_i type s1 heq
        split at h
        · cases h
        · rename_i args s2 hargs
          cases h
          have h1 : (generateOperationType g draws (s.enter (.generateOperation depth))).1
              = .ok type := by rw [heq]
          have hmem : type ∈ g.operationTypes := choice_mem _ _ _ _ type h1
          rw [Symbol.fromCatalogue, allFromCatalogue_of_forall g args
            (ihSyms (depth - 1) type.getArgsNumber s1 args (by rw [hargs])),
            decide_eq_true hmem]
          rfl
    · intro depth amount s ts h
      rw [generateSymbols] at h
      by_cases hneg : amount < 0
      · rw [if_pos hneg] at h; cases h
      · rw [if_neg hneg] at h
        obtain ⟨_, hP, _⟩ := pushBackLoop_invariant (generateSymbol g draws fuel depth)
          (fun t => t.fromCatalogue g = true) (fun _ => True) (fun _ _ => True)
          (fun _ => trivial) (fun _ _ _ _ _ => trivial)
          (fun s => ⟨trivial, fun item hi => ihSym depth s item hi, fun _ _ => trivial⟩)
          amount.toNat [] (s.enter (.generateSymbols depth amount))
        obtain ⟨new, hnew, _, hall⟩ := hP ts h
        rw [List.nil_append] at hnew
        subst hnew
        exact hall

/-- C13: in every tree returned by `generateSymbol(depth)` or
`generateOperation(depth)` every `Variable` leaf is an element of the
variable catalogue, every `Number` leaf an element of the number catalogue
and the type of every `Operation` node an element of the operation-type
catalogue; from well-formed catalogues such a tree is returned for depth
`≥ 0`, resp. `≥ 1`. -/
theorem generated_from_catalogues (g : OperationGenerator) (draws : Nat → Nat) (fuel : Nat)
    (depth : Int) (s : GenState) :
    (∀ t, (generateSymbol g draws fuel depth s).1 = .ok t → t.fromCatalogue g = true) ∧
    (∀ t, (generateOperation g draws fuel depth s).1 = .ok t → t.fromCatalogue g = true) ∧
    (g.wellFormed → 0 ≤ depth → 3 * depth.toNat + 1 ≤ fuel →
      ∃ t, (generateSymbol g draws fuel depth s).1 = .ok t ∧ t.fromCatalogue g = true) ∧
    (g.wellFormed → 1 ≤ depth → 3 * depth.toNat ≤ fuel →
      ∃ t, (generateOperation g draws fuel depth s).1 = .ok t ∧
        t.fromCatalogue g = true) := by
  have hsym := (generated_fromCatalogue g draws fuel).1 depth s
  have hop := (generated_fromCatalogue g draws fuel).2.1 depth s
  refine ⟨hsym, hop, fun hg hdepth hfuel => ?_, fun hg hdepth hfuel => ?_⟩
  · obtain ⟨t, ht⟩ := generateSymbol_returns g draws fuel depth s hdepth hg hfuel
    exact ⟨t, ht, hsym t ht⟩
  · obtain ⟨t, ht⟩ := generateOperation_returns g draws fuel depth s (by omega) hg hfuel
    exact ⟨t, ht, hop t ht⟩

theorem generated_from_catalogues_witness :
    ∃ t, (generateOperation demoGenerator (listDraws [0, 2, 1, 0, 0, 1, 0]) 6 2
        GenState.initial).1 = .ok t ∧ t.fromCatalogue demoGenerator = true :=
  (generated_from_catalogues demoGenerator (listDraws [0, 2, 1, 0, 0, 1, 0]) 6 2
    GenState.initial).2.2.2 demoGenerator_wellFormed (by decide) (by decide)

/-! ## Lines of the rendered batch -/

theorem noNewline_append (a b : String) : noNewline (a ++ b) ↔ noNewline a ∧ noNewline b := by
  simp [noNewline, String.data_append, not_or]

theorem digitChar_ne_newline (n : Nat) (h : n < 10) : Nat.digitChar n ≠ '\n' := by
  interval_cases n <;> decide

theorem toDigitsCore_no_newline (fuel n : Nat) (ds : List Char) (h : '\n' ∉ ds) :
    '\n' ∉ Nat.toDigitsCore 10 fuel n ds := by
  induction fuel generalizing n ds with
  | zero => simpa [Nat.toDigitsCore] using h
  | succ fuel ih =>
    have hcons : '\n' ∉ Nat.digitChar (n % 10) :: ds := by
      intro hmem
      rcases List.mem_cons.1 hmem with heq | hmem
      · exact digitChar_ne_newline _ (Nat.mod_lt _ (by decide)) heq.symm
      · exact h hmem
    rw [Nat.toDigitsCore]
    split_ifs
    · exact hcons
    · exact ih _ _ hcons

theorem repr_noNewline (n : Nat) : noNewline (Nat.repr n) := by
  rw [noNewline, Nat.repr, Nat.toDigits]
  exact toDigitsCore_no_newline _ _ _ (by simp)

theorem to_string_noNewline (value : Int) : noNewline (to_string value) := by
  cases value with
  | ofNat n => exact repr_noNewline n
  | negSucc n =>
    rw [to_string, noNewline_append]
    exact ⟨by unfold noNewline; decide, repr_noNewline _⟩

theorem interspersed_noNewline (separator : String) (items : List String)
    (hsep : noNewline separator) (hitems : ∀ item ∈ items, noNewline item) :
    noNewline (interspersed separator items) := by
  induction items with
  | nil => rw [interspersed]; unfold noNewline; decide
  | cons item rest ih =>
    cases rest with
    | nil =>
      rw [interspersed]
      exact hitems item (List.mem_cons_self _ _)
    | cons next rest =>
      rw [interspersed, noNewline_append, noNewline_append]
      exact ⟨⟨hitems item (List.mem_cons_self _ _), hsep⟩,
        ih (fun x hx => hitems x (List.mem_cons_of_mem _ hx))⟩

theorem join_noNewline (separator : String) (items : List String) (joined : String)
    (hsep : noNewline separator) (hitems : ∀ item ∈ items, noNewline item)
    (h : join items separator = .ok joined) : noNewline joined := by
  cases items with
  | nil =>
    rw [join_nil] at h
    split_ifs at h
    cases h
    unfold noNewline
    decide
  | cons item rest =>
    rw [join_cons] at h
    cases h
    exact interspersed_noNewline separator _ hsep hitems

mutual
theorem toString_noNewline_aux (g : OperationGenerator) (hg : g.noNewlines) :
    ∀ t : Symbol, t.fromCatalogue g = true → ∀ r, t.toString = .ok r → noNewline r
  | .Variable name, hcat, r, hr => by
    rw [Symbol.toString] at hr
    cases hr
    rw [Symbol.fromCatalogue] at hcat
    exact hg.1 _ (of_decide_eq_true hcat)
  | .Number value, _, r, hr => by
    rw [Symbol.toString] at hr
    cases hr
    exact to_string_noNewline value
  | .Operation (.SignOperationType sign n) args, hcat, r, hr => by
    rw [Symbol.fromCatalogue, Bool.and_eq_true] at hcat
    have hsign : noNewline sign := hg.2 _ (of_decide_eq_true hcat.1)
    rw [Symbol.toString] at hr
    split at hr
    · cases hr
    · rename_i strings hs
      exact join_noNewline sign strings r hsign
        (toStrings_noNewline_aux g hg args hcat.2 strings hs) hr
  | .Operation (.NameOperationType name n) args, hcat, r, hr => by
    rw [Symbol.fromCatalogue, Bool.and_eq_true] at hcat
    have hname : noNewline name := hg.2 _ (of_decide_eq_true hcat.1)
    rw [Symbol.toString] at hr
    split at hr
    · cases hr
    · rename_i strings hs
      split at hr
      · cases hr
      · rename_i joined hj
        cases hr
        have hjoined : noNewline joined :=
          join_noNewline NameOperationType.separator strings joined
            (by unfold noNewline; decide)
            (toStrings_noNewline_aux g hg args hcat.2 strings hs) hj
        rw [noNewline_append, noNewline_append, noNewline_append]
        exact ⟨⟨⟨hname, by unfold noNewline; decide⟩, hjoined⟩, by unfold noNewline; decide⟩
theorem toStrings_noNewline_aux (g : OperationGenerator) (hg : g.noNewlines) :
    ∀ l : List Symbol, Symbol.allFromCatalogue g l = true →
      ∀ rs, Symbol.toStrings l = .ok rs → ∀ r ∈ rs, noNewline r
  | [], _, rs, hrs => by
    rw [Symbol.toStrings] at hrs
    cases hrs
    intro r hr
    cases hr
  | t :: rest, hcat, rs, hrs => by
    rw [Symbol.allFromCatalogue, Bool.and_eq_true] at hcat
    rw [Symbol.toStrings] at hrs
    split at hrs
    · cases hrs
    · rename_i string hstring
      split at hrs
      · cases hrs
      · rename_i strings hstrings
        cases hrs
        intro r hr
        rcases List.mem_cons.1 hr with rfl | hr
        · exact toString_noNewline_aux g hg t hcat.1 _ hstring
        · exact toStrings_noNewline_aux g hg rest hcat.2 strings hstrings r hr
end

theorem toStrings_length (l : List Symbol) (rs : List String)
    (h : Symbol.toStrings l = .ok rs) : rs.length = l.length := by
  induction l generalizing rs with
  | nil =>
    rw [Symbol.toStrings] at h
    cases h
    rfl
  | cons t rest ih =>
    rw [Symbol.toStrings] at h
    split at h
    · cases h
    · split at h
      · cases h
      · rename_i strings hstrings
        cases h
        simp [ih strings hstrings]

theorem writeLines_foldl (renderings : List String) (file : String) :
    (renderings.foldl (fun file rendering => file ++ (rendering ++ "\n")) file).data
      = file.data ++ linesText renderings := by
  induction renderings generalizing file with
  | nil => simp [linesText]
  | cons rendering rest ih =>
    rw [List.foldl_cons, ih, linesText]
    simp [String.data_append]

theorem writeLines_data (renderings : List String) :
    (writeLines renderings).data = linesText renderings := by
  rw [writeLines, writeLines_foldl]
  rfl

theorem splitLinesFrom_line (chars : List Char) (hchars : '\n' ∉ chars) (rest line : List Char) :
    splitLinesFrom (chars ++ '\n' :: rest) line
      = String.mk (line ++ chars) :: splitLinesFrom rest [] := by
  induction chars generalizing line with
  | nil => simp [splitLinesFrom]
  | cons c cs ih =>
    have hc : c ≠ '\n' := fun h => hchars (h ▸ List.mem_cons_self _ _)
    have hcs : '\n' ∉ cs := fun h => hchars (List.mem_cons_of_mem _ h)
    rw [List.cons_append, splitLinesFrom, if_neg hc, ih hcs]
    simp

theorem splitLines_writeLines (renderings : List String)
    (h : ∀ r ∈ renderings, noNewline r) :
    splitLines (writeLines renderings) = renderings := by
  rw [splitLines, writeLines_data]
  induction renderings with
  | nil => simp [linesText, splitLinesFrom]
  | cons rendering rest ih =>
    rw [linesText, splitLinesFrom_line _ (h rendering (List.mem_cons_self _ _)),
      ih (fun r hr => h r (List.mem_cons_of_mem _ hr))]
    simp

/-- C12, counterexample: on a catalogue whose variable is named `"a\nb"`,
`generateOperations(1, 1)` returns one tree whose rendering contains a
newline, and the written output splits into two lines. -/
theorem rendering_with_newline :
    (generateOperations newlineGenerator (listDraws []) 3 1 1 GenState.initial).1
      = .ok [.Operation (.NameOperationType "sin" 1) [.Variable "a\nb"]] ∧
    Symbol.toStrings [.Operation (.NameOperationType "sin" 1) [.Variable "a\nb"]]
      = .ok ["sin(a\nb)"] ∧
    ¬ noNewline "sin(a\nb)" ∧
    splitLines (writeLines ["sin(a\nb)"]) = ["sin(a", "b)"] := by
  refine ⟨rfl, rfl, ?_, rfl⟩
  unfold noNewline
  decide

mutual
theorem operationsHaveChildren_aux (g : OperationGenerator)
    (harity : ∀ type ∈ g.operationTypes, 1 ≤ type.getArgsNumber) :
    ∀ t : Symbol, t.arityConsistent = true → t.fromCatalogue g = true →
      t.operationsHaveChildren = true
  | .Variable _, _, _ => by rw [Symbol.operationsHaveChildren]
  | .Number _, _, _ => by rw [Symbol.operationsHaveChildren]
  | .Operation type args, ha, hc => by
    rw [Symbol.arityConsistent, Bool.and_eq_true] at ha
    rw [Symbol.fromCatalogue, Bool.and_eq_true] at hc
    have hlen : (args.length : Int) = type.getArgsNumber := of_decide_eq_true ha.1
    have hpos := harity type (of_decide_eq_true hc.1)
    have hne : args.isEmpty = false := by
      cases args with
      | nil =>
        simp only [List.length_nil] at hlen
        omega
      | cons a rest => rfl
    rw [Symbol.operationsHaveChildren, hne,
      allOperationsHaveChildren_aux g harity args ha.2 hc.2]
    rfl
theorem allOperationsHaveChildren_aux (g : OperationGenerator)
    (harity : ∀ type ∈ g.operationTypes, 1 ≤ type.getArgsNumber) :
    ∀ l : List Symbol, Symbol.allArityConsistent l = true →
      Symbol.allFromCatalogue g l = true → Symbol.allOperationsHaveChildren l = true
  | [], _, _ => by rw [Symbol.allOperationsHaveChildren]
  | t :: rest, ha, hc => by
    rw [Symbol.allArityConsistent, Bool.and_eq_true] at ha
    rw [Symbol.allFromCatalogue, Bool.and_eq_true] at hc
    rw [Symbol.allOperationsHaveChildren, operationsHaveChildren_aux g harity t ha.1 hc.1,
      allOperationsHaveChildren_aux g harity rest ha.2 hc.2]
    rfl
end

theorem generateOperations_trees (g : OperationGenerator) (draws : Nat → Nat) (fuel : Nat)
    (depth amount : Int) (s : GenState) (ts : List Symbol)
    (hts : (generateOperations g draws fuel depth amount s).1 = .ok ts) :
    (ts.length : Int) = amount ∧
    ∀ t ∈ ts, t.arityConsistent = true ∧ t.fromCatalogue g = true := by
  rw [generateOperations] at hts
  by_cases hneg : amount < 0
  · rw [if_pos hneg] at hts; cases hts
  · rw [if_neg hneg] at hts
    obtain ⟨_, hP, _⟩ := pushBackLoop_invariant (generateOperation g draws fuel depth)
      (fun t => t.arityConsistent = true ∧ t.fromCatalogue g = true) (fun _ => True)
      (fun _ _ => True) (fun _ => trivial) (fun _ _ _ _ _ => trivial)
      (fun s1 => ⟨trivial,
        fun item hi => ⟨((generated_shape g draws fuel).2.1 depth s1 item hi).2.1,
          (generated_fromCatalogue g draws fuel).2.1 depth s1 item hi⟩,
        fun _ _ => trivial⟩)
      amount.toNat [] (s.enter (.generateOperations depth amount))
    obtain ⟨new, hnew, hlen, hall⟩ := hP ts hts
    rw [List.nil_append] at hnew
    subst hnew
    refine ⟨?_, hall⟩
    rw [hlen]
    omega

/-- Rendering a batch can fail: on the newline-free catalogue whose only
operation type is `pi` without arguments, `generateOperations(1, 1)` returns the one tree
`pi()`, and rendering it fails, so no line is written. -/
theorem rendering_of_childless_batch_fails :
    constantGenerator.noNewlines ∧
    (generateOperations constantGenerator (listDraws []) 3 1 1 GenState.initial).1
      = .ok [.Operation (.NameOperationType "pi" 0) []] ∧
    Symbol.toStrings [.Operation (.NameOperationType "pi" 0) []] = .error .out_of_range := by
  refine ⟨⟨?_, ?_⟩, rfl, rfl⟩
  · intro v hv
    simp only [constantGenerator, OperationGenerator.new, List.unzip_cons, List.unzip_nil,
      List.mem_singleton] at hv
    subst hv
    unfold noNewline
    decide
  · intro type ht
    simp only [constantGenerator, OperationGenerator.new, List.unzip_cons, List.unzip_nil,
      List.mem_singleton] at ht
    subst ht
    unfold noNewline
    decide

/-- C12, amended: for every catalogue whose variable names, signs and
operation names contain no newline character, no rendering of a tree returned
by `generateOperations(depth, amount)` contains a newline; if moreover every
operation type of the catalogue takes at least one argument, every returned
tree renders, and writing each rendering followed by a newline and splitting
the output on newline gives back the renderings, exactly `amount` lines.  From
well-formed catalogues, for depth `≥ 1` and amount `≥ 1`, the batch is
returned. -/
theorem rendered_batch_lines (g : OperationGenerator) (draws : Nat → Nat) (fuel : Nat)
    (depth amount : Int) (s : GenState) (hg : g.noNewlines) :
    (∀ ts, (generateOperations g draws fuel depth amount s).1 = .ok ts →
      (∀ t ∈ ts, ∀ r, t.toString = .ok r → noNewline r) ∧
      ((∀ type ∈ g.operationTypes, 1 ≤ type.getArgsNumber) →
        ∃ renderings, Symbol.toStrings ts = .ok renderings ∧
          (∀ r ∈ renderings, noNewline r) ∧
          splitLines (writeLines renderings) = renderings ∧
          ((splitLines (writeLines renderings)).length : Int) = amount)) ∧
    (g.wellFormed → 1 ≤ depth → 1 ≤ amount → 3 * depth.toNat ≤ fuel →
      ∃ ts, (generateOperations g draws fuel depth amount s).1 = .ok ts) := by
  refine ⟨fun ts hts => ?_, fun hwf hdepth hamount hfuel => ?_⟩
  · obtain ⟨hlen, hprops⟩ := generateOperations_trees g draws fuel depth amount s ts hts
    refine ⟨fun t ht r hr => toString_noNewline_aux g hg t (hprops t ht).2 r hr,
      fun harity => ?_⟩
    have hchildren : Symbol.allOperationsHaveChildren ts = true :=
      allOperationsHaveChildren_aux g harity ts
        (allArityConsistent_of_forall ts (fun t ht => (hprops t ht).1))
        (allFromCatalogue_of_forall g ts (fun t ht => (hprops t ht).2))
    obtain ⟨renderings, hrenderings⟩ := toStrings_returns_aux ts hchildren
    have hno : ∀ r ∈ renderings, noNewline r :=
      toStrings_noNewline_aux g hg ts
        (allFromCatalogue_of_forall g ts (fun t ht => (hprops t ht).2)) renderings hrenderings
    refine ⟨renderings, hrenderings, hno, splitLines_writeLines renderings hno, ?_⟩
    rw [splitLines_writeLines renderings hno, toStrings_length ts renderings hrenderings]
    exact hlen
  · rw [generateOperations, if_neg (by omega), pushBackLoop_eq_successiveResults,
      appendedTo_nil]
    exact successiveResults_returns _
      (fun s1 => generateOperation_returns g draws fuel depth s1 (by omega) hwf hfuel) _ _

theorem demoGenerator_noNewlines : demoGenerator.noNewlines := by
  refine ⟨?_, ?_⟩
  · intro v hv
    simp only [demoGenerator, OperationGenerator.new, List.unzip_cons, List.unzip_nil,
      List.mem_singleton] at hv
    subst hv
    unfold noNewline
    decide
  · intro type ht
    simp only [demoGenerator, OperationGenerator.new, List.unzip_cons, List.unzip_nil,
      List.mem_cons, List.mem_singleton, List.not_mem_nil, or_false] at ht
    rcases ht with rfl | rfl | rfl <;> (unfold noNewline; decide)

theorem demoGenerator_arities : ∀ type ∈ demoGenerator.operationTypes,
    1 ≤ type.getArgsNumber := by
  intro type ht
  simp only [demoGenerator, OperationGenerator.new, List.unzip_cons, List.unzip_nil,
    List.mem_cons, List.mem_singleton, List.not_mem_nil, or_false] at ht
  rcases ht with rfl | rfl | rfl <;> simp [OperationType.getArgsNumber]

theorem rendered_batch_lines_witness :
    demoGenerator.noNewlines ∧
    ∃ renderings,
      Symbol.toStrings [.Operation (.NameOperationType "sin" 1) [.Variable "x"],
          .Operation (.NameOperationType "sin" 1) [.Number 3]] = .ok renderings ∧
        (∀ r ∈ renderings, noNewline r) ∧
        splitLines (writeLines renderings) = renderings ∧
        ((splitLines (writeLines renderings)).length : Int) = 2 :=
  ⟨demoGenerator_noNewlines,
   ((rendered_batch_lines demoGenerator (listDraws [2, 0, 0, 2, 1, 0]) 4 1 2 GenState.initial
      demoGenerator_noNewlines).1 _ rfl).2 demoGenerator_arities⟩

/-! ## Category weights and dispatch -/

theorem weightOf_absent (g : OperationGenerator) (key : String)
    (h : ∀ p ∈ g.objectsAndWeights, p.1 ≠ key) : g.weightOf key = 0 := by
  have hnone : g.objectsAndWeights.lookup key = none := by
    generalize g.objectsAndWeights = m at h
    induction m with
    | nil => rfl
    | cons p rest ih =>
      rcases p with ⟨k, w⟩
      have hk : (key == k) = false := by
        have hne : key ≠ k := fun heq => h (k, w) (List.mem_cons_self _ _) heq.symm
        exact beq_false_of_ne hne
      rw [List.lookup_cons, hk]
      exact ih (fun q hq => h q (List.mem_cons_of_mem _ hq))
  rw [OperationGenerator.weightOf, hnone]
  rfl

/-- C17: the zero-depth weight vector is the map's weights of `"variable"` and
`"number"`, the any-depth vector those of `"variable"`, `"number"` and
`"operation"`, in this order, an absent key counting as 0 (the map is the one
given to the constructor).  `generateZeroDepthObjectIndex` and
`generateAnyDepthObjectIndex` return the index the distribution over exactly
these vectors produces from the next draw, and `generateSymbol` turns index 0
into a `Variable`, index 1 into a `Number` and (at a depth other than 0)
index 2 into an `Operation`; so the weight handed to the distribution at the
index of a category is the map's weight of that category's own key. -/
theorem category_weights_dispatch (g : OperationGenerator) (draws : Nat → Nat) (fuel : Nat)
    (depth : Int) (s : GenState) :
    g.zeroDepthWeights = [g.weightOf "variable", g.weightOf "number"] ∧
    g.anyDepthWeights
      = [g.weightOf "variable", g.weightOf "number", g.weightOf "operation"] ∧
    (∀ key, (∀ p ∈ g.objectsAndWeights, p.1 ≠ key) → g.weightOf key = 0) ∧
    (∀ key w, g.objectsAndWeights.lookup key = some w → g.weightOf key = w) ∧
    (∀ a b c m key, (OperationGenerator.new a b c m).weightOf key = (m.lookup key).getD 0) ∧
    (∀ s1, generateZeroDepthObjectIndex g draws s1
      = (discrete_distribution [g.weightOf "variable", g.weightOf "number"] (draws s1.drawn),
         ⟨s1.drawn + 1, s1.calls ++ [.generateZeroDepthObjectIndex]⟩)) ∧
    (∀ s1, generateAnyDepthObjectIndex g draws s1
      = (discrete_distribution
            [g.weightOf "variable", g.weightOf "number", g.weightOf "operation"]
            (draws s1.drawn),
         ⟨s1.drawn + 1, s1.calls ++ [.generateAnyDepthObjectIndex]⟩)) ∧
    (depth = 0 →
      (generateZeroDepthObjectIndex g draws (s.enter (.generateSymbol depth))).1 < 2 ∧
      ∀ t, (generateSymbol g draws (fuel + 1) depth s).1 = .ok t →
        ((generateZeroDepthObjectIndex g draws (s.enter (.generateSymbol depth))).1 = 0 ∧
          ∃ name, t = .Variable name) ∨
        ((generateZeroDepthObjectIndex g draws (s.enter (.generateSymbol depth))).1 = 1 ∧
          ∃ value, t = .Number value)) ∧
    (depth ≠ 0 →
      (generateAnyDepthObjectIndex g draws (s.enter (.generateSymbol depth))).1 < 3 ∧
      ∀ t, (generateSymbol g draws (fuel + 1) depth s).1 = .ok t →
        ((generateAnyDepthObjectIndex g draws (s.enter (.generateSymbol depth))).1 = 0 ∧
          ∃ name, t = .Variable name) ∨
        ((generateAnyDepthObjectIndex g draws (s.enter (.generateSymbol depth))).1 = 1 ∧
          ∃ value, t = .Number value) ∨
        ((generateAnyDepthObjectIndex g draws (s.enter (.generateSymbol depth))).1 = 2 ∧
          ∃ type args, t = .Operation type args)) := by
  have hzero : (generateZeroDepthObjectIndex g draws (s.enter (.generateSymbol depth))).1 < 2 := by
    have := discrete_distribution_lt g.zeroDepthWeights
      (draws (s.enter (.generateSymbol depth)).drawn)
    simpa [generateZeroDepthObjectIndex, sample, OperationGenerator.zeroDepthWeights,
      GenState.enter] using this
  have hany : (generateAnyDepthObjectIndex g draws (s.enter (.generateSymbol depth))).1 < 3 := by
    have := discrete_distribution_lt g.anyDepthWeights
      (draws (s.enter (.generateSymbol depth)).drawn)
    simpa [generateAnyDepthObjectIndex, sample, OperationGenerator.anyDepthWeights,
      GenState.enter] using this
  refine ⟨rfl, rfl, weightOf_absent g, ?_, fun _ _ _ _ _ => rfl, fun _ => rfl, fun _ => rfl,
    fun h0 => ⟨hzero, fun t ht => ?_⟩, fun h0 => ⟨hany, fun t ht => ?_⟩⟩
  · intro key w h
    rw [OperationGenerator.weightOf, h]
    rfl
  · rw [generateSymbol, if_pos h0] at ht
    split_ifs at ht with h1
    · obtain ⟨v, _, rfl⟩ := map_ok ht
      exact Or.inl ⟨h1, v.name, rfl⟩
    · obtain ⟨n, _, rfl⟩ := map_ok ht
      exact Or.inr ⟨by omega, n.value, rfl⟩
  · rw [generateSymbol, if_neg h0] at ht
    split_ifs at ht with h1 h2
    · obtain ⟨v, _, rfl⟩ := map_ok ht
      exact Or.inl ⟨h1, v.name, rfl⟩
    · obtain ⟨n, _, rfl⟩ := map_ok ht
      exact Or.inr (Or.inl ⟨h2, n.value, rfl⟩)
    · have hleaf := ((generated_shape g draws fuel).2.1 depth _ t ht).1
      refine Or.inr (Or.inr ⟨by omega, ?_⟩)
      cases t with
      | Variable _ => cases hleaf
      | Number _ => cases hleaf
      | Operation type args => exact ⟨type, args, rfl⟩

theorem category_weights_dispatch_witness :
    demoGenerator.anyDepthWeights = [1, 1, 3] ∧
    (OperationGenerator.new [] [] [] [("number", 5)]).zeroDepthWeights = [0, 5] ∧
    generateAnyDepthObjectIndex demoGenerator (listDraws [7]) GenState.initial
      = (discrete_distribution [1, 1, 3] 7, ⟨1, [.generateAnyDepthObjectIndex]⟩) :=
  ⟨(category_weights_dispatch demoGenerator (listDraws [7]) 0 1 GenState.initial).2.1,
   (category_weights_dispatch (OperationGenerator.new [] [] [] [("number", 5)]) (listDraws [])
      0 1 GenState.initial).1,
   (category_weights_dispatch demoGenerator (listDraws [7]) 0 1
      GenState.initial).2.2.2.2.2.2.1 GenState.initial⟩

/-! ## The operation branch of `generateSymbol` -/

theorem not_within_below (d : Int) : ¬ Call.within (d - 1) d (.generateSymbol d) := by
  simp only [Call.within]
  omega

theorem generateSymbol_calls (g : OperationGenerator) (draws : Nat → Nat) (fuel : Nat)
    (d : Int) (s : GenState) (t : Symbol) (hd : 0 ≤ d)
    (h : (generateSymbol g draws fuel d s).1 = .ok t) :
    ∃ nested, (generateSymbol g draws fuel d s).2.calls
        = s.calls ++ Call.generateSymbol d :: nested ∧
      nested.count (.generateSymbol d) = 0 := by
  cases fuel with
  | zero => rw [generateSymbol_zero] at h; cases h
  | succ n =>
    rcases generateSymbol_succ_cases g draws n d s with hleaf | ⟨h0, s1, hcalls, _, heq⟩
    · obtain ⟨c1, c2, h1, h2, hc, _⟩ := hleaf
      refine ⟨[c1, c2], hc, List.count_eq_zero.2 ?_⟩
      intro hmem
      simp only [List.mem_cons, List.mem_singleton, List.not_mem_nil, or_false] at hmem
      rcases hmem with rfl | rfl
      · exact not_within_below d (h1 _ _)
      · exact not_within_below d (h2 _ _)
    · have hpos : 0 < d := lt_of_le_of_ne hd (Ne.symm h0)
      obtain ⟨ext, hext, hw⟩ := ((generated_run g draws n).2.1 d s1 hpos).1
      refine ⟨.generateAnyDepthObjectIndex :: ext, ?_, List.count_eq_zero.2 ?_⟩
      · rw [heq, hext, hcalls]
        simp
      · intro hmem
        rcases List.mem_cons.1 hmem with hc | hmem
        · cases hc
        · exact not_within_below d (hw _ hmem)

theorem successiveResults_generateSymbol_calls (g : OperationGenerator) (draws : Nat → Nat)
    (fuel : Nat) (d : Int) (hd : 0 ≤ d) (count : Nat) (s : GenState)
    (children : List Symbol) (s3 : GenState)
    (h : successiveResults (generateSymbol g draws fuel d) count s = (.ok children, s3)) :
    ∃ ext, s3.calls = s.calls ++ ext ∧ ext.count (.generateSymbol d) = count := by
  induction count generalizing s children s3 with
  | zero =>
    rw [successiveResults] at h
    cases h
    exact ⟨[], by simp, rfl⟩
  | succ count ih =>
    rw [successiveResults] at h
    split at h
    · cases h
    · rename_i item s1 hbody
      split at h
      · cases h
      · rename_i items s2 hrest
        cases h
        obtain ⟨nested, hnested, hzero⟩ := generateSymbol_calls g draws fuel d s item hd
          (by rw [hbody])
        rw [hbody] at hnested
        obtain ⟨ext, hext, hcount⟩ := ih s1 items s3 hrest
        refine ⟨Call.generateSymbol d :: nested ++ ext, ?_, ?_⟩
        · rw [hext, hnested]
          simp
        · rw [List.count_append, List.count_cons_self, hzero, hcount]
          omega

/-- C15: for every depth `> 0`, when the any-depth draw gives index 2 (the
operation category) and the type `type` is then drawn, `generateSymbol(depth)`
returns `Operation(type, children)` where `children` are the results of
`getArgsNumber()` successive calls of `generateSymbol(depth - 1)`, in the
order generated; when these calls return, exactly `getArgsNumber()` calls of
`generateSymbol(depth - 1)` are recorded after the entry into
`generateSymbols(depth - 1, getArgsNumber())`. -/
theorem generateSymbol_operation_children (g : OperationGenerator) (draws : Nat → Nat)
    (fuel : Nat) (depth : Int) (s s2 : GenState) (type : OperationType)
    (hdepth : 0 < depth)
    (hindex : (generateAnyDepthObjectIndex g draws (s.enter (.generateSymbol depth))).1 = 2)
    (htype : generateOperationType g draws
        ((generateAnyDepthObjectIndex g draws (s.enter (.generateSymbol depth))).2.enter
          (.generateOperation depth)) = (.ok type, s2))
    (harity : 0 ≤ type.getArgsNumber) :
    generateSymbol g draws (fuel + 3) depth s
      = (match successiveResults (generateSymbol g draws fuel (depth - 1))
            type.getArgsNumber.toNat
            (s2.enter (.generateSymbols (depth - 1) type.getArgsNumber)) with
          | (.error e, s3) => (.error e, s3)
          | (.ok children, s3) => (.ok (.Operation type children), s3)) ∧
    (∀ children s3,
      successiveResults (generateSymbol g draws fuel (depth - 1)) type.getArgsNumber.toNat
          (s2.enter (.generateSymbols (depth - 1) type.getArgsNumber)) = (.ok children, s3) →
      generateSymbol g draws (fuel + 3) depth s = (.ok (.Operation type children), s3) ∧
      (children.length : Int) = type.getArgsNumber ∧
      ∃ ext, s3.calls = s.calls ++ [.generateSymbol depth, .generateAnyDepthObjectIndex,
            .generateOperation depth, .generateOperationType,
            .generateSymbols (depth - 1) type.getArgsNumber] ++ ext ∧
        ext.count (.generateSymbol (depth - 1)) = type.getArgsNumber.toNat) := by
  have h0 : depth ≠ 0 := by omega
  have hmain : generateSymbol g draws (fuel + 3) depth s
      = (match successiveResults (generateSymbol g draws fuel (depth - 1))
            type.getArgsNumber.toNat
            (s2.enter (.generateSymbols (depth - 1) type.getArgsNumber)) with
          | (.error e, s3) => (.error e, s3)
          | (.ok children, s3) => (.ok (.Operation type children), s3)) := by
    rw [generateSymbol, if_neg h0, if_neg (by omega), if_neg (by omega), generateOperation]
    simp only [htype]
    rw [generateSymbols, if_neg (by omega), pushBackLoop_eq_successiveResults, appendedTo_nil]
  refine ⟨hmain, fun children s3 hchildren => ?_⟩
  have hs2 : s2.calls = s.calls ++ [.generateSymbol depth, .generateAnyDepthObjectIndex,
      .generateOperation depth, .generateOperationType] := by
    have := congrArg (fun r => r.2.calls) htype
    simp only [generateOperationType, choice_state, generateAnyDepthObjectIndex, sample,
      GenState.enter] at this
    rw [← this]
    simp
  obtain ⟨ext, hext, hcount⟩ := successiveResults_generateSymbol_calls g draws fuel
    (depth - 1) (by omega) _ _ children s3 hchildren
  refine ⟨by rw [hmain, hchildren], ?_, ext, ?_, hcount⟩
  · have := successiveResults_length _ _ _ children (by rw [hchildren])
    omega
  · rw [hext]
    simp [GenState.enter, hs2]

theorem generateSymbol_operation_children_witness :
    (0 : Int) < 1 ∧
    generateSymbol demoGenerator (listDraws [2, 1, 0, 0, 1, 0]) 4 1 GenState.initial
      = (.ok (.Operation (.SignOperationType "*" 2) [.Variable "x", .Number 3]),
         ⟨6, [.generateSymbol 1, .generateAnyDepthObjectIndex, .generateOperation 1,
              .generateOperationType, .generateSymbols 0 2,
              .generateSymbol 0, .generateZeroDepthObjectIndex, .generateVariable,
              .generateSymbol 0, .generateZeroDepthObjectIndex, .generateNumber]⟩) :=
  ⟨by decide,
   ((generateSymbol_operation_children demoGenerator (listDraws [2, 1, 0, 0, 1, 0]) 1 1
      GenState.initial _ (.SignOperationType "*" 2) (by decide) rfl rfl (by decide)).1).trans
    rfl⟩

end OperationsGenerator
